import Mathlib

/-! genlib `simplematrix.h`: two-dimensional arrays with two memory layouts.

A shallow embedding of `depthmapX::BaseMatrix<T>`, `RowMatrix<T>` and
`ColumnMatrix<T>`.

* `size_t` values are natural numbers; every `size_t` product or sum computed by
  the code is reduced modulo `SIZE_MOD = 2 ^ 64`.
* The free store is explicit: `Heap` maps the address returned by `new T[n]` to
  the array living there, `nullptr` is address `0`, and `delete[]` retires a
  block. Whether `new T[n]` succeeds, and what the default-initialised elements
  hold, is decided by an `Allocator` taken as a parameter.
* A C++ object is its member values (`BaseMatrix`); operations pass the heap
  (and the receiver, when they change it) through explicitly and report how
  they ended in an `Outcome`: a value, one of the two exceptions, or an access
  outside a live array (undefined behaviour in C++).
-/

namespace depthmapX

/-- Number of values of `size_t`; arithmetic on `size_t` wraps modulo this. -/
def SIZE_MOD : Nat := 2 ^ 64

/-- How an operation ends: normally with a value, by throwing
`std::out_of_range` or `std::bad_alloc`, or by touching memory outside a live
array. -/
inductive Outcome (β : Type) where
  | ok (b : β)
  | out_of_range
  | bad_alloc
  | undefined
  deriving DecidableEq, Repr

/-- Sequencing: the first abnormal ending is the ending of the whole. -/
def Outcome.bind {β γ : Type} (x : Outcome β) (f : β → Outcome γ) : Outcome γ :=
  match x with
  | .ok b => f b
  | .out_of_range => .out_of_range
  | .bad_alloc => .bad_alloc
  | .undefined => .undefined

/-- The free store: `blocks[p - 1]` is the array at address `p`, `none` once it
has been released. Address `0` is `nullptr`. -/
structure Heap (α : Type) where
  blocks : List (Option (List α))
  deriving DecidableEq, Repr

/-- The behaviour of `new T[n]` left open by the language: which requests are
satisfied, and the value the `k`-th default-initialised element has. -/
structure Allocator (α : Type) where
  admits : Nat → Bool
  fresh : Nat → α

/-- A `T&` or `T const&` into an array: the array and the element index. -/
structure Ref where
  base : Nat
  offset : Nat
  deriving DecidableEq, Repr

/-- The live array at address `p`, if there is one. -/
def Heap.block {α : Type} (h : Heap α) (p : Nat) : Option (List α) :=
  match p with
  | 0 => none
  | k + 1 =>
    match h.blocks[k]? with
    | some (some b) => some b
    | _ => none

/-- The expression `new T[n]`: a fresh address on success, `std::bad_alloc` and
an untouched heap on failure. -/
def Heap.new_array {α : Type} (al : Allocator α) (h : Heap α) (n : Nat) :
    Outcome Nat × Heap α :=
  if al.admits n then
    (.ok (h.blocks.length + 1), ⟨h.blocks ++ [some ((List.range n).map al.fresh)]⟩)
  else
    (.bad_alloc, h)

/-- The statement `delete[] p`; deleting `nullptr` does nothing. -/
def Heap.delete_array {α : Type} (h : Heap α) (p : Nat) : Heap α :=
  match p with
  | 0 => h
  | k + 1 => ⟨h.blocks.set k none⟩

/-- Reading through a reference. -/
def Heap.load {α : Type} (h : Heap α) (r : Ref) : Outcome α :=
  match h.block r.base with
  | none => .undefined
  | some b =>
    match b[r.offset]? with
    | none => .undefined
    | some v => .ok v

/-- Writing through a reference. -/
def Heap.store {α : Type} (h : Heap α) (r : Ref) (v : α) : Outcome Unit × Heap α :=
  match r.base, h.block r.base with
  | k + 1, some b =>
    if r.offset < b.length then (.ok (), ⟨h.blocks.set k (some (b.set r.offset v))⟩)
    else (.undefined, h)
  | _, _ => (.undefined, h)

/-- The call `std::copy(src, src + n, dst)` on arrays of the heap. An empty
range copies nothing, whatever the pointers are. -/
def Heap.std_copy {α : Type} (h : Heap α) (src n dst : Nat) : Outcome Unit × Heap α :=
  if n = 0 then (.ok (), h)
  else
    match dst, h.block src, h.block dst with
    | k + 1, some s, some d =>
      if n ≤ s.length ∧ n ≤ d.length then
        (.ok (), ⟨h.blocks.set k (some (s.take n ++ d.drop n))⟩)
      else (.undefined, h)
    | _, _, _ => (.undefined, h)

/-- The call `std::swap(a, b)` on two `size_t` or pointer variables: their
values afterwards. -/
def std_swap (a b : Nat) : Nat × Nat := (b, a)

/-- The data members of `BaseMatrix<T>`. -/
structure BaseMatrix where
  m_data : Nat
  m_rows : Nat
  m_columns : Nat
  deriving DecidableEq, Repr

namespace BaseMatrix

/-- The constructor `BaseMatrix(size_t rows, size_t columns)`. -/
def ctor {α : Type} (al : Allocator α) (h : Heap α) (rows columns : Nat) :
    Outcome BaseMatrix × Heap α :=
  match h.new_array al ((rows * columns) % SIZE_MOD) with
  | (.ok p, h1) => (.ok { m_data := p, m_rows := rows, m_columns := columns }, h1)
  | (.out_of_range, h1) => (.out_of_range, h1)
  | (.bad_alloc, h1) => (.bad_alloc, h1)
  | (.undefined, h1) => (.undefined, h1)

/-- The member `size()`. -/
def size (m : BaseMatrix) : Nat := (m.m_rows * m.m_columns) % SIZE_MOD

/-- The member `rows()`. -/
def rows (m : BaseMatrix) : Nat := m.m_rows

/-- The member `columns()`. -/
def columns (m : BaseMatrix) : Nat := m.m_columns

/-- The member `begin()`. -/
def begin (m : BaseMatrix) : Nat := m.m_data

/-- The copy constructor: delegate to `BaseMatrix(other.m_rows, other.m_columns)`,
then `std::copy(other.begin(), other.end(), m_data)`. -/
def copy_ctor {α : Type} (al : Allocator α) (h : Heap α) (other : BaseMatrix) :
    Outcome BaseMatrix × Heap α :=
  match ctor al h other.m_rows other.m_columns with
  | (.ok m, h1) =>
    match h1.std_copy other.begin other.size m.m_data with
    | (.ok (), h2) => (.ok m, h2)
    | (.out_of_range, h2) => (.out_of_range, h2)
    | (.bad_alloc, h2) => (.bad_alloc, h2)
    | (.undefined, h2) => (.undefined, h2)
  | (.out_of_range, h1) => (.out_of_range, h1)
  | (.bad_alloc, h1) => (.bad_alloc, h1)
  | (.undefined, h1) => (.undefined, h1)

/-- The move constructor: the new object (first component) takes the members of
`other`, and `other` (second component) is reset. The heap is not touched. -/
def move_ctor (other : BaseMatrix) : BaseMatrix × BaseMatrix :=
  ({ m_data := other.m_data, m_rows := other.m_rows, m_columns := other.m_columns },
   { m_data := 0, m_rows := 0, m_columns := 0 })

/-- The destructor `~BaseMatrix()`. -/
def dtor {α : Type} (h : Heap α) (m : BaseMatrix) : Heap α :=
  h.delete_array m.m_data

/-- The member `access_check`. -/
def access_check (m : BaseMatrix) (row column : Nat) : Outcome Unit :=
  if row ≥ m.m_rows then .out_of_range
  else if column ≥ m.m_columns then .out_of_range
  else .ok ()

end BaseMatrix

namespace RowMatrix

/-- The constructor `RowMatrix(size_t rows, size_t columns)`. -/
def ctor {α : Type} (al : Allocator α) (h : Heap α) (rows columns : Nat) :
    Outcome BaseMatrix × Heap α :=
  BaseMatrix.ctor al h rows columns

/-- The copy constructor `RowMatrix(RowMatrix const &)`. -/
def copy_ctor {α : Type} (al : Allocator α) (h : Heap α) (other : BaseMatrix) :
    Outcome BaseMatrix × Heap α :=
  BaseMatrix.copy_ctor al h other

/-- The move constructor `RowMatrix(RowMatrix &&)`. -/
def move_ctor (other : BaseMatrix) : BaseMatrix × BaseMatrix :=
  BaseMatrix.move_ctor other

/-- The copy assignment `operator=`: the outcome, the receiver afterwards and
the heap afterwards. The temporary is built first; after the three swaps it
holds the receiver's old members and its destructor runs on return. -/
def op_assign {α : Type} (al : Allocator α) (h : Heap α) (self other : BaseMatrix) :
    Outcome Unit × BaseMatrix × Heap α :=
  match copy_ctor al h other with
  | (.ok tmp, h1) =>
    let (d, td) := std_swap self.m_data tmp.m_data
    let (r, tr) := std_swap self.m_rows tmp.m_rows
    let (c, tc) := std_swap self.m_columns tmp.m_columns
    (.ok (), { m_data := d, m_rows := r, m_columns := c },
      BaseMatrix.dtor h1 { m_data := td, m_rows := tr, m_columns := tc })
  | (.out_of_range, h1) => (.out_of_range, self, h1)
  | (.bad_alloc, h1) => (.bad_alloc, self, h1)
  | (.undefined, h1) => (.undefined, self, h1)

/-- The mutable `operator()(row, column)`: a reference to `m_data[column + row * m_columns]`. -/
def op_call (m : BaseMatrix) (row column : Nat) : Outcome Ref :=
  (m.access_check row column).bind fun _ =>
    .ok ⟨m.m_data, (column + row * m.m_columns) % SIZE_MOD⟩

/-- The read-only `operator()(row, column) const`. -/
def op_call_const (m : BaseMatrix) (row column : Nat) : Outcome Ref :=
  (m.access_check row column).bind fun _ =>
    .ok ⟨m.m_data, (column + row * m.m_columns) % SIZE_MOD⟩

/-- The expression `m(row, column)` used as a value, on a const matrix. -/
def read {α : Type} (h : Heap α) (m : BaseMatrix) (row column : Nat) : Outcome α :=
  (op_call_const m row column).bind h.load

/-- The statement `m(row, column) = v`. -/
def write {α : Type} (h : Heap α) (m : BaseMatrix) (row column : Nat) (v : α) :
    Outcome Unit × Heap α :=
  match op_call m row column with
  | .ok r => h.store r v
  | .out_of_range => (.out_of_range, h)
  | .bad_alloc => (.bad_alloc, h)
  | .undefined => (.undefined, h)

end RowMatrix

namespace ColumnMatrix

/-- The constructor `ColumnMatrix(size_t rows, size_t columns)`. -/
def ctor {α : Type} (al : Allocator α) (h : Heap α) (rows columns : Nat) :
    Outcome BaseMatrix × Heap α :=
  BaseMatrix.ctor al h rows columns

/-- The copy constructor `ColumnMatrix(ColumnMatrix const &)`. -/
def copy_ctor {α : Type} (al : Allocator α) (h : Heap α) (other : BaseMatrix) :
    Outcome BaseMatrix × Heap α :=
  BaseMatrix.copy_ctor al h other

/-- The move constructor `ColumnMatrix(ColumnMatrix &&)`. -/
def move_ctor (other : BaseMatrix) : BaseMatrix × BaseMatrix :=
  BaseMatrix.move_ctor other

/-- The copy assignment `operator=`, as for `RowMatrix`. -/
def op_assign {α : Type} (al : Allocator α) (h : Heap α) (self other : BaseMatrix) :
    Outcome Unit × BaseMatrix × Heap α :=
  match copy_ctor al h other with
  | (.ok tmp, h1) =>
    let (d, td) := std_swap self.m_data tmp.m_data
    let (r, tr) := std_swap self.m_rows tmp.m_rows
    let (c, tc) := std_swap self.m_columns tmp.m_columns
    (.ok (), { m_data := d, m_rows := r, m_columns := c },
      BaseMatrix.dtor h1 { m_data := td, m_rows := tr, m_columns := tc })
  | (.out_of_range, h1) => (.out_of_range, self, h1)
  | (.bad_alloc, h1) => (.bad_alloc, self, h1)
  | (.undefined, h1) => (.undefined, self, h1)

/-- The mutable `operator()(row, column)`: a reference to `m_data[row + column * m_rows]`. -/
def op_call (m : BaseMatrix) (row column : Nat) : Outcome Ref :=
  (m.access_check row column).bind fun _ =>
    .ok ⟨m.m_data, (row + column * m.m_rows) % SIZE_MOD⟩

/-- The read-only `operator()(row, column) const`. -/
def op_call_const (m : BaseMatrix) (row column : Nat) : Outcome Ref :=
  (m.access_check row column).bind fun _ =>
    .ok ⟨m.m_data, (row + column * m.m_rows) % SIZE_MOD⟩

/-- The expression `m(row, column)` used as a value, on a const matrix. -/
def read {α : Type} (h : Heap α) (m : BaseMatrix) (row column : Nat) : Outcome α :=
  (op_call_const m row column).bind h.load

/-- The statement `m(row, column) = v`. -/
def write {α : Type} (h : Heap α) (m : BaseMatrix) (row column : Nat) (v : α) :
    Outcome Unit × Heap α :=
  match op_call m row column with
  | .ok r => h.store r v
  | .out_of_range => (.out_of_range, h)
  | .bad_alloc => (.bad_alloc, h)
  | .undefined => (.undefined, h)

end ColumnMatrix

/-- The class invariant of a matrix object `m` in heap `h`: either `m` is in the
moved-from state (no buffer, zero rows and columns), or `m_data` is a live array
holding exactly `size()` elements. -/
def BaseMatrix.valid {α : Type} (h : Heap α) (m : BaseMatrix) : Prop :=
  (m.m_data = 0 ∧ m.m_rows = 0 ∧ m.m_columns = 0) ∨
    (h.block m.m_data).map List.length = some m.size

instance {α : Type} (h : Heap α) (m : BaseMatrix) : Decidable (m.valid h) := by
  unfold BaseMatrix.valid
  infer_instance

/-- The two concrete classes. -/
inductive Layout where
  | row
  | column
  deriving DecidableEq, Repr

/-- The constructor of the class. -/
def Layout.ctor {α : Type} (l : Layout) (al : Allocator α) (h : Heap α) (rows columns : Nat) :
    Outcome BaseMatrix × Heap α :=
  match l with
  | .row => RowMatrix.ctor al h rows columns
  | .column => ColumnMatrix.ctor al h rows columns

/-- The copy constructor of the class. -/
def Layout.copy_ctor {α : Type} (l : Layout) (al : Allocator α) (h : Heap α)
    (other : BaseMatrix) : Outcome BaseMatrix × Heap α :=
  match l with
  | .row => RowMatrix.copy_ctor al h other
  | .column => ColumnMatrix.copy_ctor al h other

/-- The move constructor of the class. -/
def Layout.move_ctor (l : Layout) (other : BaseMatrix) : BaseMatrix × BaseMatrix :=
  match l with
  | .row => RowMatrix.move_ctor other
  | .column => ColumnMatrix.move_ctor other

/-- The copy assignment of the class. -/
def Layout.op_assign {α : Type} (l : Layout) (al : Allocator α) (h : Heap α)
    (self other : BaseMatrix) : Outcome Unit × BaseMatrix × Heap α :=
  match l with
  | .row => RowMatrix.op_assign al h self other
  | .column => ColumnMatrix.op_assign al h self other

/-- The statement `m(row, column) = v` for the class. -/
def Layout.write {α : Type} (l : Layout) (h : Heap α) (m : BaseMatrix) (row column : Nat)
    (v : α) : Outcome Unit × Heap α :=
  match l with
  | .row => RowMatrix.write h m row column v
  | .column => ColumnMatrix.write h m row column v

/-- A program state: the heap and the matrix objects alive, each with its
class. -/
structure World (α : Type) where
  heap : Heap α
  objs : List (Layout × BaseMatrix)

/-- The public operations a program applies to its matrix objects; objects are
named by their position in `World.objs`. -/
inductive Op (α : Type) where
  | construct (al : Allocator α) (l : Layout) (rows columns : Nat)
  | copy_construct (al : Allocator α) (src : Nat)
  | move_construct (src : Nat)
  | assign (al : Allocator α) (dst src : Nat)
  | write (obj row column : Nat) (v : α)
  | destroy (obj : Nat)

/-- One operation. A constructor that throws creates no object; an operation
naming an object that does not exist, or assigning across the two classes
(which does not compile), does nothing. -/
def World.exec {α : Type} (w : World α) (op : Op α) : World α :=
  match op with
  | .construct al l rows columns =>
    match l.ctor al w.heap rows columns with
    | (.ok m, h1) => ⟨h1, w.objs ++ [(l, m)]⟩
    | (_, h1) => ⟨h1, w.objs⟩
  | .copy_construct al src =>
    match w.objs[src]? with
    | some (l, a) =>
      match l.copy_ctor al w.heap a with
      | (.ok m, h1) => ⟨h1, w.objs ++ [(l, m)]⟩
      | (_, h1) => ⟨h1, w.objs⟩
    | none => w
  | .move_construct src =>
    match w.objs[src]? with
    | some (l, a) => ⟨w.heap, w.objs.set src (l, (l.move_ctor a).2) ++ [(l, (l.move_ctor a).1)]⟩
    | none => w
  | .assign al dst src =>
    match w.objs[dst]?, w.objs[src]? with
    | some (l, self), some (l2, other) =>
      if l = l2 then
        ⟨(l.op_assign al w.heap self other).2.2,
          w.objs.set dst (l, (l.op_assign al w.heap self other).2.1)⟩
      else w
    | _, _ => w
  | .write obj row column v =>
    match w.objs[obj]? with
    | some (l, m) => ⟨(l.write w.heap m row column v).2, w.objs⟩
    | none => w
  | .destroy obj =>
    match w.objs[obj]? with
    | some (_, m) => ⟨BaseMatrix.dtor w.heap m, w.objs.eraseIdx obj⟩
    | none => w

/-- A sequence of operations, first to last. -/
def World.run {α : Type} (w : World α) (ops : List (Op α)) : World α :=
  ops.foldl World.exec w

/-- The state of a program that has created no matrix yet. -/
def World.init {α : Type} : World α := ⟨⟨[]⟩, []⟩

/-- The invariant of a program state: every object satisfies the class
invariant, and no two objects own the same buffer. -/
def World.inv {α : Type} (w : World α) : Prop :=
  (∀ (i : Nat) (l : Layout) (m : BaseMatrix), w.objs[i]? = some (l, m) → m.valid w.heap) ∧
  (∀ (i j : Nat) (l1 l2 : Layout) (m1 m2 : BaseMatrix), i ≠ j →
    w.objs[i]? = some (l1, m1) → w.objs[j]? = some (l2, m2) →
    m1.m_data = m2.m_data → m1.m_data = 0)

/-- The member `end()`: the pointer `m_data + size()`, one past the last
element of the data array. -/
def BaseMatrix.end_ (m : BaseMatrix) : Ref := ⟨m.m_data, m.size⟩

/-- The loop `for (; n > 0; --n) out.push_back(*it++)` with `it` starting at
element `start` of the array at `base`: the elements read, in order. -/
def Heap.load_range {α : Type} (h : Heap α) (base start n : Nat) : Outcome (List α) :=
  match n with
  | 0 => .ok []
  | k + 1 =>
    (h.load ⟨base, start⟩).bind fun x =>
      (h.load_range base (start + 1) k).bind fun xs => .ok (x :: xs)

/-- Sequential iteration `for (it = m.begin(); it != m.end(); ++it)`: the
elements visited, in order. -/
def BaseMatrix.elements {α : Type} (h : Heap α) (m : BaseMatrix) : Outcome (List α) :=
  h.load_range m.begin 0 m.end_.offset

/-- The two statements `a(row, column) = v; b(row, column) = v;` on a row-major
`a` and a column-major `b`: the heap afterwards. -/
def write_both {α : Type} (a b : BaseMatrix) (h : Heap α) (w : Nat × Nat × α) : Heap α :=
  (ColumnMatrix.write (RowMatrix.write h a w.1 w.2.1 w.2.2).2 b w.1 w.2.1 w.2.2).2

/-- A sequence of such pairs of writes, first to last. -/
def writes_both {α : Type} (a b : BaseMatrix) (h : Heap α) (ws : List (Nat × Nat × α)) :
    Heap α :=
  ws.foldl (write_both a b) h

/-- The heap before anything has been allocated. -/
def Heap.empty {α : Type} : Heap α := ⟨[]⟩

/-- An allocator for `T = unsigned`: requests of up to 64 elements succeed, and
default-initialised elements read as `0`. -/
def smallAlloc : Allocator Nat := ⟨fun n => decide (n ≤ 64), fun _ => 0⟩

/-- An allocator that refuses every request. -/
def noAlloc : Allocator Nat := ⟨fun _ => false, fun _ => 0⟩

/-- A row-major matrix with `2 ^ 63 + 1` rows and `2` columns, as `RowMatrix.ctor`
leaves it in the empty heap: the element count `rows * columns` wraps to `2`. -/
def wrapRow : BaseMatrix := ⟨1, 2 ^ 63 + 1, 2⟩

/-- A column-major matrix with `2` rows and `2 ^ 63 + 1` columns, as
`ColumnMatrix.ctor` leaves it in the empty heap. -/
def wrapCol : BaseMatrix := ⟨1, 2, 2 ^ 63 + 1⟩

/-- A matrix with `2 ^ 32` rows and `2 ^ 32` columns, as the constructor leaves
it in the empty heap: the element count `rows * columns` wraps to `0`. -/
def wrapZero : BaseMatrix := ⟨1, 2 ^ 32, 2 ^ 32⟩

/-- A 3 by 3 row-major matrix at address `1`. -/
def rowA : BaseMatrix := ⟨1, 3, 3⟩

/-- A 2 by 2 row-major matrix at address `2`. -/
def rowB : BaseMatrix := ⟨2, 2, 2⟩

/-- A heap in which `rowA` holds `1..9` in row-major reading order and `rowB`
holds zeros. -/
def heapAB : Heap Nat := ⟨[some [1, 2, 3, 4, 5, 6, 7, 8, 9], some [0, 0, 0, 0]]⟩

/-- A 2 by 3 column-major matrix at address `1`. -/
def colC : BaseMatrix := ⟨1, 2, 3⟩

/-- A heap in which `colC` holds zeros, as `ColumnMatrix.ctor smallAlloc` leaves
it. -/
def heapC : Heap Nat := ⟨[some [0, 0, 0, 0, 0, 0]]⟩

/-- The heap `heapAB` after `rowA` has been copied to a new matrix at address
`3`. -/
def heapABA : Heap Nat :=
  ⟨[some [1, 2, 3, 4, 5, 6, 7, 8, 9], some [0, 0, 0, 0], some [1, 2, 3, 4, 5, 6, 7, 8, 9]]⟩

/-- The heap `heapAB` after `rowB = rowA`: the old buffer of `rowB` is released
and the receiver owns a new block at address `3`. -/
def heapAfterAssign : Heap Nat :=
  ⟨[some [1, 2, 3, 4, 5, 6, 7, 8, 9], none, some [1, 2, 3, 4, 5, 6, 7, 8, 9]]⟩

/-- The one-operation program `RowMatrix m(2 ^ 32, 2 ^ 32)`. -/
def wrapOps : List (Op Nat) := [.construct smallAlloc .row (2 ^ 32) (2 ^ 32)]

/-- A short program: construct a 2 by 3 row-major matrix, write `7` at `(1, 1)`,
copy it, assign the copy back to the original, move the original away. -/
def demoOps : List (Op Nat) :=
  [.construct smallAlloc .row 2 3, .write 0 1 1 7, .copy_construct smallAlloc 0,
    .assign smallAlloc 0 1, .move_construct 0]

/-- The heap `heapAB` after `rowA = rowA`: the old buffer of `rowA` is released
and the matrix owns a new block at address `3`. -/
def heapSelfAssign : Heap Nat :=
  ⟨[none, some [0, 0, 0, 0], some [1, 2, 3, 4, 5, 6, 7, 8, 9]]⟩

/-- A 2 by 2 row-major matrix at address `1`. -/
def pairRow : BaseMatrix := ⟨1, 2, 2⟩

/-- A 2 by 2 column-major matrix at address `2`. -/
def pairCol : BaseMatrix := ⟨2, 2, 2⟩

/-- A heap in which `pairRow` and `pairCol` both hold the matrix `1 2 / 3 4`,
each in its own storage order. -/
def pairHeap : Heap Nat := ⟨[some [1, 2, 3, 4], some [1, 3, 2, 4]]⟩

/-- Three paired writes: `9` to `(0, 1)`, `8` to the invalid `(5, 5)`, `7` to
`(1, 0)`. -/
def pairWrites : List (Nat × Nat × Nat) := [(0, 1, 9), (5, 5, 8), (1, 0, 7)]

end depthmapX

/-! `comm.h`: the interval timer `qtimer`. `time_t` is a signed 64-bit integer;
a difference outside its range wraps in two's complement. The reading of the
system clock, in milliseconds, is the parameter `now`. -/

/-- Reduction of an integer into the range of `time_t`. -/
def wrap_time_t (x : Int) : Int := (x + 2 ^ 63) % 2 ^ 64 - 2 ^ 63

/-- The values of `time_t`. -/
def is_time_t (x : Int) : Prop := -(2 ^ 63) ≤ x ∧ x < 2 ^ 63

instance (x : Int) : Decidable (is_time_t x) := by
  unfold is_time_t
  infer_instance

/-- The function `qtimer(time_t &t1, time_t timeout)`: the value returned and the
value of `t1` afterwards. -/
def qtimer (now : Int) (t1 timeout : Int) : Bool × Int :=
  let t2 := now
  if wrap_time_t (t2 - t1) > timeout ∨ wrap_time_t (t2 - t1) < 0 then (true, t2)
  else (false, t1)

namespace depthmapX

/-! ## Bounds checking -/

theorem access_check_out_of_range_iff (m : BaseMatrix) (row column : Nat) :
    m.access_check row column = .out_of_range ↔ row ≥ m.m_rows ∨ column ≥ m.m_columns := by
  unfold BaseMatrix.access_check
  by_cases h1 : row ≥ m.m_rows
  · simp [h1]
  · by_cases h2 : column ≥ m.m_columns
    · simp [h2]
    · simp [h1, h2]

theorem access_check_ok_iff (m : BaseMatrix) (row column : Nat) :
    m.access_check row column = .ok () ↔ row < m.m_rows ∧ column < m.m_columns := by
  unfold BaseMatrix.access_check
  by_cases h1 : row ≥ m.m_rows
  · simp [h1]
  · by_cases h2 : column ≥ m.m_columns
    · simp [h1, h2]
    · simp only [h1, h2, if_false, true_iff]
      omega

theorem load_ne_out_of_range {α : Type} (h : Heap α) (r : Ref) :
    h.load r ≠ .out_of_range := by
  unfold Heap.load
  split
  · simp
  · split <;> simp

theorem store_ne_out_of_range {α : Type} (h : Heap α) (r : Ref) (v : α) :
    (h.store r v).1 ≠ .out_of_range := by
  unfold Heap.store
  split
  · split <;> simp
  · simp

theorem row_op_call_eq (m : BaseMatrix) (row column : Nat) :
    RowMatrix.op_call m row column =
      if row < m.m_rows ∧ column < m.m_columns then
        .ok ⟨m.m_data, (column + row * m.m_columns) % SIZE_MOD⟩
      else .out_of_range := by
  unfold RowMatrix.op_call BaseMatrix.access_check
  by_cases h1 : row ≥ m.m_rows
  · have : ¬ row < m.m_rows := by omega
    simp [h1, this, Outcome.bind]
  · by_cases h2 : column ≥ m.m_columns
    · have : ¬ column < m.m_columns := by omega
      simp [h1, h2, this, Outcome.bind]
    · have h3 : row < m.m_rows := by omega
      have h4 : column < m.m_columns := by omega
      simp [h1, h2, h3, h4, Outcome.bind]

theorem row_op_call_const_eq (m : BaseMatrix) (row column : Nat) :
    RowMatrix.op_call_const m row column = RowMatrix.op_call m row column := rfl

theorem col_op_call_eq (m : BaseMatrix) (row column : Nat) :
    ColumnMatrix.op_call m row column =
      if row < m.m_rows ∧ column < m.m_columns then
        .ok ⟨m.m_data, (row + column * m.m_rows) % SIZE_MOD⟩
      else .out_of_range := by
  unfold ColumnMatrix.op_call BaseMatrix.access_check
  by_cases h1 : row ≥ m.m_rows
  · have : ¬ row < m.m_rows := by omega
    simp [h1, this, Outcome.bind]
  · by_cases h2 : column ≥ m.m_columns
    · have : ¬ column < m.m_columns := by omega
      simp [h1, h2, this, Outcome.bind]
    · have h3 : row < m.m_rows := by omega
      have h4 : column < m.m_columns := by omega
      simp [h1, h2, h3, h4, Outcome.bind]

theorem col_op_call_const_eq (m : BaseMatrix) (row column : Nat) :
    ColumnMatrix.op_call_const m row column = ColumnMatrix.op_call m row column := rfl

theorem row_read_eq {α : Type} (h : Heap α) (m : BaseMatrix) (row column : Nat) :
    RowMatrix.read h m row column =
      if row < m.m_rows ∧ column < m.m_columns then
        h.load ⟨m.m_data, (column + row * m.m_columns) % SIZE_MOD⟩
      else .out_of_range := by
  unfold RowMatrix.read
  rw [row_op_call_const_eq, row_op_call_eq]
  split <;> simp [Outcome.bind]

theorem col_read_eq {α : Type} (h : Heap α) (m : BaseMatrix) (row column : Nat) :
    ColumnMatrix.read h m row column =
      if row < m.m_rows ∧ column < m.m_columns then
        h.load ⟨m.m_data, (row + column * m.m_rows) % SIZE_MOD⟩
      else .out_of_range := by
  unfold ColumnMatrix.read
  rw [col_op_call_const_eq, col_op_call_eq]
  split <;> simp [Outcome.bind]

theorem row_write_eq {α : Type} (h : Heap α) (m : BaseMatrix) (row column : Nat) (v : α) :
    RowMatrix.write h m row column v =
      if row < m.m_rows ∧ column < m.m_columns then
        h.store ⟨m.m_data, (column + row * m.m_columns) % SIZE_MOD⟩ v
      else (.out_of_range, h) := by
  unfold RowMatrix.write
  rw [row_op_call_eq]
  by_cases hc : row < m.m_rows ∧ column < m.m_columns
  · simp only [hc, and_self, if_true]
  · simp only [hc, if_false]

theorem col_write_eq {α : Type} (h : Heap α) (m : BaseMatrix) (row column : Nat) (v : α) :
    ColumnMatrix.write h m row column v =
      if row < m.m_rows ∧ column < m.m_columns then
        h.store ⟨m.m_data, (row + column * m.m_rows) % SIZE_MOD⟩ v
      else (.out_of_range, h) := by
  unfold ColumnMatrix.write
  rw [col_op_call_eq]
  by_cases hc : row < m.m_rows ∧ column < m.m_columns
  · simp only [hc, and_self, if_true]
  · simp only [hc, if_false]

/-- C1: for both layouts and for the mutable and the read-only `operator()`,
the access (forming the reference, reading through it, writing through it) ends
in `std::out_of_range` exactly when `row >= rows()` or `column >= columns()`;
the two layouts therefore agree on the check, and `(rows(), 0)` and
`(0, columns())` are always rejected. -/
theorem access_out_of_range_iff {α : Type} (h : Heap α) (m : BaseMatrix)
    (row column : Nat) (v : α) :
    (RowMatrix.op_call m row column = .out_of_range ↔
      row ≥ m.rows ∨ column ≥ m.columns) ∧
    (RowMatrix.op_call_const m row column = .out_of_range ↔
      row ≥ m.rows ∨ column ≥ m.columns) ∧
    (ColumnMatrix.op_call m row column = .out_of_range ↔
      row ≥ m.rows ∨ column ≥ m.columns) ∧
    (ColumnMatrix.op_call_const m row column = .out_of_range ↔
      row ≥ m.rows ∨ column ≥ m.columns) ∧
    (RowMatrix.read h m row column = .out_of_range ↔
      row ≥ m.rows ∨ column ≥ m.columns) ∧
    ((RowMatrix.write h m row column v).1 = .out_of_range ↔
      row ≥ m.rows ∨ column ≥ m.columns) ∧
    (ColumnMatrix.read h m row column = .out_of_range ↔
      row ≥ m.rows ∨ column ≥ m.columns) ∧
    ((ColumnMatrix.write h m row column v).1 = .out_of_range ↔
      row ≥ m.rows ∨ column ≥ m.columns) ∧
    (RowMatrix.op_call m row column = .out_of_range ↔
      ColumnMatrix.op_call m row column = .out_of_range) ∧
    (RowMatrix.op_call_const m row column = .out_of_range ↔
      ColumnMatrix.op_call_const m row column = .out_of_range) ∧
    RowMatrix.op_call m m.rows 0 = .out_of_range ∧
    RowMatrix.op_call m 0 m.columns = .out_of_range ∧
    RowMatrix.op_call_const m m.rows 0 = .out_of_range ∧
    RowMatrix.op_call_const m 0 m.columns = .out_of_range ∧
    ColumnMatrix.op_call m m.rows 0 = .out_of_range ∧
    ColumnMatrix.op_call m 0 m.columns = .out_of_range ∧
    ColumnMatrix.op_call_const m m.rows 0 = .out_of_range ∧
    ColumnMatrix.op_call_const m 0 m.columns = .out_of_range := by
  have key : (row < m.m_rows ∧ column < m.m_columns) ↔
      ¬ (row ≥ m.m_rows ∨ column ≥ m.m_columns) := by omega
  have hl := load_ne_out_of_range h
  have hs := fun r => store_ne_out_of_range h r v
  simp only [row_op_call_const_eq, col_op_call_const_eq, row_op_call_eq, col_op_call_eq,
    row_read_eq, col_read_eq, row_write_eq, col_write_eq, BaseMatrix.rows, BaseMatrix.columns]
  by_cases hc : row ≥ m.m_rows ∨ column ≥ m.m_columns
  · have hn : ¬ (row < m.m_rows ∧ column < m.m_columns) := by omega
    simp [hn, hc]
  · have hp : row < m.m_rows ∧ column < m.m_columns := by omega
    simp [hp, hc, hl, hs]

/-! ## The heap -/

theorem block_zero {α : Type} (h : Heap α) : h.block 0 = none := rfl

theorem block_succ {α : Type} (h : Heap α) (k : Nat) :
    h.block (k + 1) = (h.blocks[k]?).join := by
  unfold Heap.block
  simp only
  split
  · next hb => rw [hb]; rfl
  · next hb =>
    cases hk : h.blocks[k]? with
    | none => rfl
    | some o =>
      cases o with
      | none => rfl
      | some b => exact absurd hk (hb b)

theorem block_some_le {α : Type} (h : Heap α) (p : Nat) (b : List α)
    (hb : h.block p = some b) : 1 ≤ p ∧ p ≤ h.blocks.length := by
  cases p with
  | zero => simp [block_zero] at hb
  | succ k =>
    rw [block_succ] at hb
    by_cases hk : k < h.blocks.length
    · omega
    · have : h.blocks[k]? = none := List.getElem?_eq_none (by omega)
      rw [this] at hb
      simp at hb

theorem block_append_old {α : Type} (h : Heap α) (x : Option (List α)) (p : Nat)
    (hp : p ≤ h.blocks.length) :
    (⟨h.blocks ++ [x]⟩ : Heap α).block p = h.block p := by
  cases p with
  | zero => rfl
  | succ k =>
    rw [block_succ, block_succ]
    have hk : k < h.blocks.length := by omega
    simp only [List.getElem?_append_left hk]

theorem block_append_new {α : Type} (h : Heap α) (x : Option (List α)) :
    (⟨h.blocks ++ [x]⟩ : Heap α).block (h.blocks.length + 1) = x := by
  rw [block_succ]
  simp

theorem block_set_same {α : Type} (h : Heap α) (x : Option (List α)) (k : Nat)
    (hk : k < h.blocks.length) :
    (⟨h.blocks.set k x⟩ : Heap α).block (k + 1) = x := by
  rw [block_succ]
  simp [List.getElem?_set_self, hk]

theorem block_set_other {α : Type} (h : Heap α) (x : Option (List α)) (k p : Nat)
    (hp : p ≠ k + 1) :
    (⟨h.blocks.set k x⟩ : Heap α).block p = h.block p := by
  cases p with
  | zero => rfl
  | succ q =>
    rw [block_succ, block_succ]
    have hq : k ≠ q := by omega
    simp only [List.getElem?_set_ne hq]

theorem load_of_block {α : Type} (h : Heap α) (p k : Nat) (b : List α)
    (hb : h.block p = some b) :
    h.load ⟨p, k⟩ = (match b[k]? with
      | none => .undefined
      | some v => .ok v) := by
  unfold Heap.load
  simp only [hb]

theorem load_in_bounds {α : Type} (h : Heap α) (p k : Nat) (b : List α)
    (hb : h.block p = some b) (hk : k < b.length) :
    ∃ v, h.load ⟨p, k⟩ = .ok v ∧ b[k]? = some v := by
  refine ⟨b[k], ?_, List.getElem?_eq_getElem hk⟩
  rw [load_of_block h p k b hb, List.getElem?_eq_getElem hk]

/-! ## Construction -/

theorem ctor_eq {α : Type} (al : Allocator α) (h : Heap α) (r c : Nat) :
    BaseMatrix.ctor al h r c =
      if al.admits ((r * c) % SIZE_MOD) then
        (.ok ⟨h.blocks.length + 1, r, c⟩,
          ⟨h.blocks ++ [some ((List.range ((r * c) % SIZE_MOD)).map al.fresh)]⟩)
      else (.bad_alloc, h) := by
  unfold BaseMatrix.ctor Heap.new_array
  by_cases ha : al.admits ((r * c) % SIZE_MOD) = true
  · simp [ha]
  · simp [ha]

theorem ctor_ok_iff {α : Type} (al : Allocator α) (h : Heap α) (r c : Nat) :
    (∃ m h1, BaseMatrix.ctor al h r c = (.ok m, h1)) ↔
      al.admits ((r * c) % SIZE_MOD) = true := by
  rw [ctor_eq]
  by_cases ha : al.admits ((r * c) % SIZE_MOD) = true
  · simp [ha]
  · simp [ha]

theorem ctor_ok_members {α : Type} (al : Allocator α) (h : Heap α) (r c : Nat)
    (m : BaseMatrix) (h1 : Heap α) (hok : BaseMatrix.ctor al h r c = (.ok m, h1)) :
    m = ⟨h.blocks.length + 1, r, c⟩ ∧
      h1 = ⟨h.blocks ++ [some ((List.range ((r * c) % SIZE_MOD)).map al.fresh)]⟩ := by
  rw [ctor_eq] at hok
  by_cases ha : al.admits ((r * c) % SIZE_MOD) = true
  · simp only [ha, if_true, Prod.mk.injEq, Outcome.ok.injEq] at hok
    exact ⟨hok.1.symm, hok.2.symm⟩
  · simp [ha] at hok

/-- C8, the claim as stated fails: a `2 ^ 32` by `2 ^ 32` matrix is constructed
(the request is for `0` elements) and reports `size() == 0`, not
`2 ^ 32 * 2 ^ 32`. -/
theorem ctor_size_wraps :
    RowMatrix.ctor smallAlloc Heap.empty (2 ^ 32) (2 ^ 32) = (.ok wrapZero, ⟨[some []]⟩) ∧
    ColumnMatrix.ctor smallAlloc Heap.empty (2 ^ 32) (2 ^ 32) = (.ok wrapZero, ⟨[some []]⟩) ∧
    wrapZero.rows = 2 ^ 32 ∧ wrapZero.columns = 2 ^ 32 ∧
    wrapZero.size = 0 ∧ wrapZero.size ≠ 2 ^ 32 * 2 ^ 32 := by
  decide

/-- C8, amended: a matrix of either layout is constructed from `(r, c)` exactly
when the allocator grants `r * c mod 2 ^ 64` elements, and it then reports
`rows() == r`, `columns() == c` and `size() == r * c mod 2 ^ 64`, which is
`r * c` whenever `r * c < 2 ^ 64`. -/
theorem ctor_dimensions {α : Type} (al : Allocator α) (h : Heap α) (r c : Nat) :
    ((∃ m h1, RowMatrix.ctor al h r c = (.ok m, h1)) ↔
      al.admits ((r * c) % SIZE_MOD) = true) ∧
    ((∃ m h1, ColumnMatrix.ctor al h r c = (.ok m, h1)) ↔
      al.admits ((r * c) % SIZE_MOD) = true) ∧
    (∀ m h1, (RowMatrix.ctor al h r c = (.ok m, h1) ∨
        ColumnMatrix.ctor al h r c = (.ok m, h1)) →
      m.rows = r ∧ m.columns = c ∧ m.size = (r * c) % SIZE_MOD ∧
        (r * c < SIZE_MOD → m.size = r * c)) := by
  refine ⟨ctor_ok_iff al h r c, ctor_ok_iff al h r c, ?_⟩
  intro m h1 hok
  have hm : m = ⟨h.blocks.length + 1, r, c⟩ := by
    rcases hok with hok | hok
    · exact (ctor_ok_members al h r c m h1 hok).1
    · exact (ctor_ok_members al h r c m h1 hok).1
  subst hm
  refine ⟨rfl, rfl, rfl, ?_⟩
  intro hlt
  exact Nat.mod_eq_of_lt hlt

/-- C8, amended, at a 2 by 3 matrix of each layout in the empty heap. -/
theorem ctor_dimensions_witness :
    (∃ m h1, RowMatrix.ctor smallAlloc Heap.empty 2 3 = (.ok m, h1) ∧
      m.rows = 2 ∧ m.columns = 3 ∧ m.size = 2 * 3) ∧
    (∃ m h1, ColumnMatrix.ctor smallAlloc Heap.empty 2 3 = (.ok m, h1) ∧
      m.rows = 2 ∧ m.columns = 3 ∧ m.size = 2 * 3) := by
  have key := ctor_dimensions smallAlloc Heap.empty 2 3
  obtain ⟨m, h1, hm⟩ := key.1.mpr (by decide)
  obtain ⟨m2, h2, hm2⟩ := key.2.1.mpr (by decide)
  have p1 := key.2.2 m h1 (Or.inl hm)
  have p2 := key.2.2 m2 h2 (Or.inr hm2)
  exact ⟨⟨m, h1, hm, p1.1, p1.2.1, p1.2.2.2 (by decide)⟩,
    ⟨m2, h2, hm2, p2.1, p2.2.1, p2.2.2.2 (by decide)⟩⟩

/-! ## Moving -/

/-- C7: after `B = move(A)`, for either layout, the source has `rows() == 0`,
`columns() == 0`, `size() == 0` and a null `m_data` (no buffer), while the
target has the rows, the columns and the very buffer `A` had: the heap is not
touched, so every index reads on `B` what it read on `A` before. -/
theorem move_empties_source {α : Type} (h : Heap α) (a : BaseMatrix) (i j : Nat) :
    ((RowMatrix.move_ctor a).2.rows = 0 ∧ (RowMatrix.move_ctor a).2.columns = 0 ∧
      (RowMatrix.move_ctor a).2.size = 0 ∧ (RowMatrix.move_ctor a).2.m_data = 0 ∧
      h.block (RowMatrix.move_ctor a).2.begin = none ∧
      (RowMatrix.move_ctor a).1.rows = a.rows ∧
      (RowMatrix.move_ctor a).1.columns = a.columns ∧
      (RowMatrix.move_ctor a).1.size = a.size ∧
      (RowMatrix.move_ctor a).1.begin = a.begin ∧
      h.block (RowMatrix.move_ctor a).1.begin = h.block a.begin ∧
      RowMatrix.read h (RowMatrix.move_ctor a).1 i j = RowMatrix.read h a i j) ∧
    ((ColumnMatrix.move_ctor a).2.rows = 0 ∧ (ColumnMatrix.move_ctor a).2.columns = 0 ∧
      (ColumnMatrix.move_ctor a).2.size = 0 ∧ (ColumnMatrix.move_ctor a).2.m_data = 0 ∧
      h.block (ColumnMatrix.move_ctor a).2.begin = none ∧
      (ColumnMatrix.move_ctor a).1.rows = a.rows ∧
      (ColumnMatrix.move_ctor a).1.columns = a.columns ∧
      (ColumnMatrix.move_ctor a).1.size = a.size ∧
      (ColumnMatrix.move_ctor a).1.begin = a.begin ∧
      h.block (ColumnMatrix.move_ctor a).1.begin = h.block a.begin ∧
      ColumnMatrix.read h (ColumnMatrix.move_ctor a).1 i j = ColumnMatrix.read h a i j) := by
  refine ⟨⟨rfl, rfl, ?_, rfl, rfl, rfl, rfl, rfl, rfl, rfl, rfl⟩,
    ⟨rfl, rfl, ?_, rfl, rfl, rfl, rfl, rfl, rfl, rfl, rfl⟩⟩ <;>
  simp [RowMatrix.move_ctor, ColumnMatrix.move_ctor, BaseMatrix.move_ctor, BaseMatrix.size]

/-! ## Address translation -/

theorem store_of_block {α : Type} (h : Heap α) (p k : Nat) (b : List α) (v : α)
    (hb : h.block p = some b) (hk : k < b.length) :
    h.store ⟨p, k⟩ v = (.ok (), ⟨h.blocks.set (p - 1) (some (b.set k v))⟩) := by
  cases p with
  | zero => simp [block_zero] at hb
  | succ q =>
    unfold Heap.store
    simp only [hb, hk, if_true, Nat.add_sub_cancel]

theorem block_after_store {α : Type} (h : Heap α) (p k : Nat) (b : List α) (v : α)
    (hb : h.block p = some b) (hk : k < b.length) :
    ∃ h1, h.store ⟨p, k⟩ v = (.ok (), h1) ∧ h1.block p = some (b.set k v) ∧
      ∀ q, q ≠ p → h1.block q = h.block q := by
  refine ⟨_, store_of_block h p k b v hb hk, ?_, ?_⟩
  · have hp := block_some_le h p b hb
    obtain ⟨q, rfl⟩ : ∃ q, p = q + 1 := ⟨p - 1, by omega⟩
    simp only [Nat.add_sub_cancel]
    exact block_set_same h _ q (by omega)
  · intro q hq
    have hp := block_some_le h p b hb
    exact block_set_other h _ (p - 1) q (by omega)

theorem valid_live {α : Type} (h : Heap α) (m : BaseMatrix) (hv : m.valid h)
    (hpos : 0 < m.m_rows) :
    ∃ b, h.block m.m_data = some b ∧ b.length = m.size := by
  rcases hv with ⟨_, hr, _⟩ | hv
  · omega
  · cases hb : h.block m.m_data with
    | none => rw [hb] at hv; simp at hv
    | some b =>
      rw [hb] at hv
      simp only [Option.map_some', Option.some.injEq] at hv
      exact ⟨b, rfl, hv⟩

theorem offset_lt (r c i j : Nat) (hi : i < r) (hj : j < c) : j + i * c < r * c := by
  have h1 : (i + 1) * c ≤ r * c := Nat.mul_le_mul_right c hi
  have h2 : (i + 1) * c = i * c + c := Nat.succ_mul i c
  omega

/-- C2, the claim as stated fails: the row-major matrix with `2 ^ 63 + 1` rows
and `2` columns is constructed with a two-element buffer, and after `7` is
written to `(0, 0)` the valid index `(2 ^ 63, 0)` reads that `7` from buffer
position `0`, whereas position `0 + 2 ^ 63 * 2` is outside the buffer. -/
theorem row_major_offset_wraps :
    RowMatrix.ctor smallAlloc Heap.empty (2 ^ 63 + 1) 2 = (.ok wrapRow, ⟨[some [0, 0]]⟩) ∧
    RowMatrix.write ⟨[some [0, 0]]⟩ wrapRow 0 0 7 = (.ok (), ⟨[some [7, 0]]⟩) ∧
    2 ^ 63 < wrapRow.rows ∧ 0 < wrapRow.columns ∧
    RowMatrix.op_call wrapRow (2 ^ 63) 0 = .ok ⟨wrapRow.begin, 0⟩ ∧
    RowMatrix.read (⟨[some [7, 0]]⟩ : Heap Nat) wrapRow (2 ^ 63) 0 = .ok 7 ∧
    (⟨[some [7, 0]]⟩ : Heap Nat).load ⟨wrapRow.begin, 0 + 2 ^ 63 * wrapRow.columns⟩
      = .undefined ∧
    RowMatrix.read (⟨[some [7, 0]]⟩ : Heap Nat) wrapRow (2 ^ 63) 0 ≠
      (⟨[some [7, 0]]⟩ : Heap Nat).load ⟨wrapRow.begin, 0 + 2 ^ 63 * wrapRow.columns⟩ := by
  decide

/-- C2, amended: for a row-major matrix and `i < rows()`, `j < columns()`,
`operator()(i, j)` refers to buffer position `(j + i * columns()) mod 2 ^ 64`;
when the matrix satisfies its invariant and `rows() * columns() < 2 ^ 64`, that
position is `j + i * columns()` itself, it lies inside the buffer of
`rows() * columns()` elements, and the element there is the one returned. -/
theorem row_major_offset {α : Type} (h : Heap α) (m : BaseMatrix) (i j : Nat)
    (hi : i < m.rows) (hj : j < m.columns) :
    RowMatrix.op_call m i j = .ok ⟨m.begin, (j + i * m.columns) % SIZE_MOD⟩ ∧
    RowMatrix.op_call_const m i j = .ok ⟨m.begin, (j + i * m.columns) % SIZE_MOD⟩ ∧
    RowMatrix.read h m i j = h.load ⟨m.begin, (j + i * m.columns) % SIZE_MOD⟩ ∧
    (m.valid h → m.rows * m.columns < SIZE_MOD →
      (j + i * m.columns) % SIZE_MOD = j + i * m.columns ∧
      ∃ b v, h.block m.begin = some b ∧ b.length = m.rows * m.columns ∧
        j + i * m.columns < b.length ∧ b[j + i * m.columns]? = some v ∧
        RowMatrix.read h m i j = .ok v) := by
  simp only [BaseMatrix.rows, BaseMatrix.columns, BaseMatrix.begin] at *
  have hc : i < m.m_rows ∧ j < m.m_columns := ⟨hi, hj⟩
  refine ⟨?_, ?_, ?_, ?_⟩
  · rw [row_op_call_eq]; simp only [hc, and_self, if_true]
  · rw [row_op_call_const_eq, row_op_call_eq]; simp only [hc, and_self, if_true]
  · rw [row_read_eq]; simp only [hc, and_self, if_true]
  · intro hv hno
    have hlt := offset_lt m.m_rows m.m_columns i j hi hj
    have hmod : (j + i * m.m_columns) % SIZE_MOD = j + i * m.m_columns :=
      Nat.mod_eq_of_lt (by omega)
    obtain ⟨b, hb, hlen⟩ := valid_live h m hv (by omega)
    have hsize : m.size = m.m_rows * m.m_columns := Nat.mod_eq_of_lt hno
    rw [hsize] at hlen
    obtain ⟨v, hload, hget⟩ := load_in_bounds h m.m_data (j + i * m.m_columns) b hb (by omega)
    refine ⟨hmod, b, v, hb, hlen, by omega, hget, ?_⟩
    rw [row_read_eq]; simp only [hc, and_self, if_true, hmod]
    exact hload

/-- C2, amended, at the 3 by 3 matrix holding `1..9`: `(1, 1)` is buffer
position `4` and holds `5`. -/
theorem row_major_offset_witness :
    RowMatrix.op_call rowA 1 1 = .ok ⟨1, 4⟩ ∧
    ∃ b v, heapAB.block rowA.begin = some b ∧ b.length = 3 * 3 ∧
      1 + 1 * 3 < b.length ∧ b[1 + 1 * 3]? = some v ∧ RowMatrix.read heapAB rowA 1 1 = .ok v :=
  ⟨(row_major_offset heapAB rowA 1 1 (by decide) (by decide)).1,
    ((row_major_offset heapAB rowA 1 1 (by decide) (by decide)).2.2.2
      (by decide) (by decide)).2⟩

/-- C3, the claim as stated fails: the column-major matrix with `2` rows and
`2 ^ 63 + 1` columns is constructed with a two-element buffer, and after `7` is
written to `(0, 0)` the valid index `(0, 2 ^ 63)` reads that `7` from buffer
position `0`, whereas position `0 + 2 ^ 63 * 2` is outside the buffer. -/
theorem column_major_offset_wraps :
    ColumnMatrix.ctor smallAlloc Heap.empty 2 (2 ^ 63 + 1) = (.ok wrapCol, ⟨[some [0, 0]]⟩) ∧
    ColumnMatrix.write ⟨[some [0, 0]]⟩ wrapCol 0 0 7 = (.ok (), ⟨[some [7, 0]]⟩) ∧
    0 < wrapCol.rows ∧ 2 ^ 63 < wrapCol.columns ∧
    ColumnMatrix.op_call wrapCol 0 (2 ^ 63) = .ok ⟨wrapCol.begin, 0⟩ ∧
    ColumnMatrix.read (⟨[some [7, 0]]⟩ : Heap Nat) wrapCol 0 (2 ^ 63) = .ok 7 ∧
    (⟨[some [7, 0]]⟩ : Heap Nat).load ⟨wrapCol.begin, 0 + 2 ^ 63 * wrapCol.rows⟩
      = .undefined ∧
    ColumnMatrix.read (⟨[some [7, 0]]⟩ : Heap Nat) wrapCol 0 (2 ^ 63) ≠
      (⟨[some [7, 0]]⟩ : Heap Nat).load ⟨wrapCol.begin, 0 + 2 ^ 63 * wrapCol.rows⟩ := by
  decide

/-- C3, amended: for a column-major matrix and `i < rows()`, `j < columns()`,
`operator()(i, j)` refers to buffer position `(i + j * rows()) mod 2 ^ 64`; when
the matrix satisfies its invariant and `rows() * columns() < 2 ^ 64`, that
position is `i + j * rows()` itself, it lies inside the buffer of
`rows() * columns()` elements, the element there is the one returned, and a
value written through `operator()(i, j)` lands at that position. -/
theorem column_major_offset {α : Type} (h : Heap α) (m : BaseMatrix) (i j : Nat)
    (hi : i < m.rows) (hj : j < m.columns) :
    ColumnMatrix.op_call m i j = .ok ⟨m.begin, (i + j * m.rows) % SIZE_MOD⟩ ∧
    ColumnMatrix.op_call_const m i j = .ok ⟨m.begin, (i + j * m.rows) % SIZE_MOD⟩ ∧
    ColumnMatrix.read h m i j = h.load ⟨m.begin, (i + j * m.rows) % SIZE_MOD⟩ ∧
    (m.valid h → m.rows * m.columns < SIZE_MOD →
      (i + j * m.rows) % SIZE_MOD = i + j * m.rows ∧
      ∃ b v, h.block m.begin = some b ∧ b.length = m.rows * m.columns ∧
        i + j * m.rows < b.length ∧ b[i + j * m.rows]? = some v ∧
        ColumnMatrix.read h m i j = .ok v ∧
        ∀ w, ∃ h1, ColumnMatrix.write h m i j w = (.ok (), h1) ∧
          h1.block m.begin = some (b.set (i + j * m.rows) w)) := by
  simp only [BaseMatrix.rows, BaseMatrix.columns, BaseMatrix.begin] at *
  have hc : i < m.m_rows ∧ j < m.m_columns := ⟨hi, hj⟩
  refine ⟨?_, ?_, ?_, ?_⟩
  · rw [col_op_call_eq]; simp only [hc, and_self, if_true]
  · rw [col_op_call_const_eq, col_op_call_eq]; simp only [hc, and_self, if_true]
  · rw [col_read_eq]; simp only [hc, and_self, if_true]
  · intro hv hno
    have hlt := offset_lt m.m_columns m.m_rows j i hj hi
    have hcomm : m.m_columns * m.m_rows = m.m_rows * m.m_columns := Nat.mul_comm _ _
    have hmod : (i + j * m.m_rows) % SIZE_MOD = i + j * m.m_rows :=
      Nat.mod_eq_of_lt (by omega)
    obtain ⟨b, hb, hlen⟩ := valid_live h m hv (by omega)
    have hsize : m.size = m.m_rows * m.m_columns := Nat.mod_eq_of_lt hno
    rw [hsize] at hlen
    obtain ⟨v, hload, hget⟩ := load_in_bounds h m.m_data (i + j * m.m_rows) b hb (by omega)
    refine ⟨hmod, b, v, hb, hlen, by omega, hget, ?_, ?_⟩
    · rw [col_read_eq]; simp only [hc, and_self, if_true, hmod]
      exact hload
    · intro w
      obtain ⟨h1, hst, hblk, _⟩ :=
        block_after_store h m.m_data (i + j * m.m_rows) b w hb (by omega)
      refine ⟨h1, ?_, hblk⟩
      rw [col_write_eq]; simp only [hc, and_self, if_true, hmod]
      exact hst

/-- C3, amended, at the 2 by 3 column-major matrix: `(1, 2)` is raw position
`1 + 2 * 2 = 5`, and writing `7` there puts it at position `5` of the buffer. -/
theorem column_major_offset_witness :
    ColumnMatrix.op_call colC 1 2 = .ok ⟨1, 5⟩ ∧
    ∃ b v, heapC.block colC.begin = some b ∧ b.length = 2 * 3 ∧
      1 + 2 * 2 < b.length ∧ b[1 + 2 * 2]? = some v ∧
      ColumnMatrix.read heapC colC 1 2 = .ok v ∧
      ∀ w, ∃ h1, ColumnMatrix.write heapC colC 1 2 w = (.ok (), h1) ∧
        h1.block colC.begin = some (b.set 5 w) :=
  ⟨(column_major_offset heapC colC 1 2 (by decide) (by decide)).1,
    ((column_major_offset heapC colC 1 2 (by decide) (by decide)).2.2.2
      (by decide) (by decide)).2⟩

/-! ## Empty matrices -/

/-- C10, the claim as stated fails: the matrix constructed with
`(2 ^ 32, 2 ^ 32)` has `size() == 0`, yet for both layouts `operator()(0, 0)`
passes the range check and refers to element `0` of a buffer of no elements. -/
theorem zero_size_accepts_index :
    RowMatrix.ctor smallAlloc Heap.empty (2 ^ 32) (2 ^ 32) = (.ok wrapZero, ⟨[some []]⟩) ∧
    wrapZero.size = 0 ∧
    RowMatrix.op_call wrapZero 0 0 = .ok ⟨wrapZero.begin, 0⟩ ∧
    RowMatrix.op_call_const wrapZero 0 0 ≠ .out_of_range ∧
    ColumnMatrix.op_call wrapZero 0 0 = .ok ⟨wrapZero.begin, 0⟩ ∧
    ColumnMatrix.op_call_const wrapZero 0 0 ≠ .out_of_range ∧
    RowMatrix.read (⟨[some []]⟩ : Heap Nat) wrapZero 0 0 = .undefined ∧
    ColumnMatrix.read (⟨[some []]⟩ : Heap Nat) wrapZero 0 0 = .undefined := by
  decide

/-- C10, amended: a matrix of either layout with `rows() == 0` or
`columns() == 0` has `size() == 0` and answers every `operator()(row, column)`,
read or write, with `std::out_of_range`; a matrix constructed with a zero
dimension and a matrix left behind by a move are of that kind. -/
theorem zero_dimension_rejects_every_index {α : Type} (h : Heap α) (row column : Nat)
    (v : α) :
    (∀ m : BaseMatrix, m.rows = 0 ∨ m.columns = 0 →
      m.size = 0 ∧
      RowMatrix.op_call m row column = .out_of_range ∧
      RowMatrix.op_call_const m row column = .out_of_range ∧
      ColumnMatrix.op_call m row column = .out_of_range ∧
      ColumnMatrix.op_call_const m row column = .out_of_range ∧
      RowMatrix.read h m row column = .out_of_range ∧
      ColumnMatrix.read h m row column = .out_of_range ∧
      RowMatrix.write h m row column v = (.out_of_range, h) ∧
      ColumnMatrix.write h m row column v = (.out_of_range, h)) ∧
    (∀ (al : Allocator α) (h0 h1 : Heap α) (r c : Nat) (m : BaseMatrix),
      r = 0 ∨ c = 0 →
      RowMatrix.ctor al h0 r c = (.ok m, h1) ∨ ColumnMatrix.ctor al h0 r c = (.ok m, h1) →
      m.rows = 0 ∨ m.columns = 0) ∧
    (∀ a : BaseMatrix, (RowMatrix.move_ctor a).2.rows = 0 ∧
      (ColumnMatrix.move_ctor a).2.rows = 0) := by
  refine ⟨?_, ?_, fun _ => ⟨rfl, rfl⟩⟩
  · intro m hz
    simp only [BaseMatrix.rows, BaseMatrix.columns] at hz
    have hn : ¬ (row < m.m_rows ∧ column < m.m_columns) := by omega
    have hs : m.size = 0 := by
      unfold BaseMatrix.size
      rcases hz with hz | hz <;> simp [hz]
    simp only [row_op_call_const_eq, col_op_call_const_eq, row_op_call_eq, col_op_call_eq,
      row_read_eq, col_read_eq, row_write_eq, col_write_eq, hn, if_false, hs, and_self]
  · intro al h0 h1 r c m hz hok
    have hm : m = ⟨h0.blocks.length + 1, r, c⟩ := by
      rcases hok with hok | hok
      · exact (ctor_ok_members al h0 r c m h1 hok).1
      · exact (ctor_ok_members al h0 r c m h1 hok).1
    subst hm
    exact hz

/-- C10, amended, at a 0 by 5 matrix constructed in the empty heap and at the
source of a move: index `(0, 0)` is rejected. -/
theorem zero_dimension_rejects_every_index_witness :
    RowMatrix.ctor smallAlloc Heap.empty 0 5 = (.ok ⟨1, 0, 5⟩, ⟨[some []]⟩) ∧
    RowMatrix.read (⟨[some []]⟩ : Heap Nat) ⟨1, 0, 5⟩ 0 0 = .out_of_range ∧
    ColumnMatrix.read heapAB (ColumnMatrix.move_ctor rowA).2 0 0 = .out_of_range :=
  ⟨by decide,
    ((zero_dimension_rejects_every_index (⟨[some []]⟩ : Heap Nat) 0 0 0).1 ⟨1, 0, 5⟩
      ((zero_dimension_rejects_every_index (⟨[some []]⟩ : Heap Nat) 0 0 0).2.1
        smallAlloc Heap.empty ⟨[some []]⟩ 0 5 ⟨1, 0, 5⟩ (Or.inl rfl)
        (Or.inl (by decide)))).2.2.2.2.2.1,
    ((zero_dimension_rejects_every_index heapAB 0 0 0).1 (ColumnMatrix.move_ctor rowA).2
      (Or.inl ((zero_dimension_rejects_every_index heapAB 0 0 0).2.2 rowA).2)).2.2.2.2.2.2.1⟩

/-! ## Copying -/

theorem std_copy_fresh {α : Type} (h : Heap α) (src n : Nat) (s d : List α)
    (hs : h.block src = some s) (hsl : s.length = n) (hdl : d.length = n)
    (hsrc : src ≤ h.blocks.length) :
    (⟨h.blocks ++ [some d]⟩ : Heap α).std_copy src n (h.blocks.length + 1) =
      (.ok (), ⟨h.blocks ++ [some s]⟩) := by
  unfold Heap.std_copy
  by_cases hn : n = 0
  · subst hn
    have h1 : s = [] := List.length_eq_zero.mp hsl
    have h2 : d = [] := List.length_eq_zero.mp hdl
    simp [h1, h2]
  · have hb1 : (⟨h.blocks ++ [some d]⟩ : Heap α).block src = some s := by
      rw [block_append_old h _ src hsrc]; exact hs
    have hb2 : (⟨h.blocks ++ [some d]⟩ : Heap α).block (h.blocks.length + 1) = some d :=
      block_append_new h _
    simp only [hn, if_false, hb1, hb2]
    have hle : n ≤ s.length ∧ n ≤ d.length := by omega
    simp only [hle, and_self, if_true]
    have ht : s.take n = s := List.take_of_length_le (by omega)
    have hd : d.drop n = [] := List.drop_of_length_le (by omega)
    simp [ht, hd]

theorem copy_ctor_refused {α : Type} (al : Allocator α) (h : Heap α) (a : BaseMatrix)
    (hno : al.admits a.size = false) :
    BaseMatrix.copy_ctor al h a = (.bad_alloc, h) := by
  unfold BaseMatrix.copy_ctor
  rw [ctor_eq]
  have : al.admits ((a.m_rows * a.m_columns) % SIZE_MOD) = false := hno
  simp [this]

theorem valid_data_le {α : Type} (h : Heap α) (m : BaseMatrix) (hv : m.valid h) :
    m.m_data ≤ h.blocks.length := by
  rcases hv with ⟨h0, _, _⟩ | hv
  · omega
  · cases hb : h.block m.m_data with
    | none => rw [hb] at hv; simp at hv
    | some b => exact (block_some_le h _ b hb).2

theorem copy_ctor_granted {α : Type} (al : Allocator α) (h : Heap α) (a : BaseMatrix)
    (hv : a.valid h) (hyes : al.admits a.size = true) :
    BaseMatrix.copy_ctor al h a =
      (.ok ⟨h.blocks.length + 1, a.m_rows, a.m_columns⟩,
        ⟨h.blocks ++ [some ((h.block a.m_data).getD [])]⟩) := by
  unfold BaseMatrix.copy_ctor
  rw [ctor_eq]
  have hy : al.admits ((a.m_rows * a.m_columns) % SIZE_MOD) = true := hyes
  simp only [hy, if_true, BaseMatrix.begin]
  have hfl : ((List.range ((a.m_rows * a.m_columns) % SIZE_MOD)).map al.fresh).length
      = a.size := by simp [BaseMatrix.size]
  rcases hv with ⟨h0, hr, hc⟩ | hv
  · have hs : a.size = 0 := by simp [BaseMatrix.size, hr]
    have hz : (a.m_rows * a.m_columns) % SIZE_MOD = 0 := hs
    simp [Heap.std_copy, hs, hz, h0, block_zero]
  · cases hb : h.block a.m_data with
    | none => rw [hb] at hv; simp at hv
    | some s =>
      rw [hb] at hv
      simp only [Option.map_some', Option.some.injEq] at hv
      have hle := (block_some_le h _ s hb).2
      rw [std_copy_fresh h a.m_data a.size s _ hb hv hfl hle]
      simp

theorem copy_ctor_ok_iff {α : Type} (al : Allocator α) (h : Heap α) (a : BaseMatrix)
    (hv : a.valid h) :
    (∃ b h1, BaseMatrix.copy_ctor al h a = (.ok b, h1)) ↔ al.admits a.size = true := by
  constructor
  · rintro ⟨b, h1, hok⟩
    by_contra hno
    rw [copy_ctor_refused al h a (by simpa using hno)] at hok
    simp at hok
  · intro hyes
    exact ⟨_, _, copy_ctor_granted al h a hv hyes⟩

theorem copy_ctor_ok_members {α : Type} (al : Allocator α) (h : Heap α) (a b : BaseMatrix)
    (h1 : Heap α) (hv : a.valid h) (hok : BaseMatrix.copy_ctor al h a = (.ok b, h1)) :
    b = ⟨h.blocks.length + 1, a.m_rows, a.m_columns⟩ ∧
      h1 = ⟨h.blocks ++ [some ((h.block a.m_data).getD [])]⟩ := by
  have hyes := (copy_ctor_ok_iff al h a hv).mp ⟨b, h1, hok⟩
  rw [copy_ctor_granted al h a hv hyes] at hok
  simp only [Prod.mk.injEq, Outcome.ok.injEq] at hok
  exact ⟨hok.1.symm, hok.2.symm⟩

theorem load_congr {α : Type} (h h1 : Heap α) (p q k : Nat)
    (hb : h1.block q = h.block p) : h1.load ⟨q, k⟩ = h.load ⟨p, k⟩ := by
  unfold Heap.load
  simp only [hb]

theorem valid_congr {α : Type} (h h1 : Heap α) (m : BaseMatrix)
    (hb : h1.block m.m_data = h.block m.m_data) (hv : m.valid h) : m.valid h1 := by
  unfold BaseMatrix.valid at *
  rw [hb]
  exact hv

theorem store_frame {α : Type} (h : Heap α) (r : Ref) (v : α) (q : Nat)
    (hq : q ≠ r.base) : (h.store r v).2.block q = h.block q := by
  unfold Heap.store
  split
  · next k b hk hb =>
    split
    · exact block_set_other h _ k q (by omega)
    · rfl
  · rfl

theorem store_length {α : Type} (h : Heap α) (r : Ref) (v : α) (q : Nat) :
    ((h.store r v).2.block q).map List.length = (h.block q).map List.length := by
  by_cases hq : q = r.base
  · subst hq
    unfold Heap.store
    split
    · next k b hk hb =>
      split
      · have hp := block_some_le h _ b hb
        rw [hk] at hp ⊢
        rw [block_set_same h _ k (by omega)]
        rw [hk] at hb
        simp [hb]
      · rfl
    · rfl
  · rw [store_frame h r v q hq]


theorem delete_block_other {α : Type} (h : Heap α) (p q : Nat) (hq : q ≠ p) :
    (h.delete_array p).block q = h.block q := by
  cases p with
  | zero => rfl
  | succ k => exact block_set_other h none k q hq

theorem delete_block_same {α : Type} (h : Heap α) (p : Nat) :
    (h.delete_array p).block p = none := by
  cases p with
  | zero => rfl
  | succ k =>
    by_cases hk : k < h.blocks.length
    · exact block_set_same h none k hk
    · show (⟨h.blocks.set k none⟩ : Heap α).block (k + 1) = none
      rw [block_succ]
      have : (h.blocks.set k none)[k]? = none :=
        List.getElem?_eq_none (by simp only [List.length_set]; omega)
      rw [this]; rfl

theorem row_read_congr {α : Type} (h h1 : Heap α) (m m1 : BaseMatrix) (i j : Nat)
    (hr : m1.m_rows = m.m_rows) (hc : m1.m_columns = m.m_columns)
    (hb : h1.block m1.m_data = h.block m.m_data) :
    RowMatrix.read h1 m1 i j = RowMatrix.read h m i j := by
  rw [row_read_eq, row_read_eq, hr, hc]
  rw [load_congr h h1 m.m_data m1.m_data _ hb]

theorem col_read_congr {α : Type} (h h1 : Heap α) (m m1 : BaseMatrix) (i j : Nat)
    (hr : m1.m_rows = m.m_rows) (hc : m1.m_columns = m.m_columns)
    (hb : h1.block m1.m_data = h.block m.m_data) :
    ColumnMatrix.read h1 m1 i j = ColumnMatrix.read h m i j := by
  rw [col_read_eq, col_read_eq, hr, hc]
  rw [load_congr h h1 m.m_data m1.m_data _ hb]

theorem row_read_null {α : Type} (h h1 : Heap α) (m m1 : BaseMatrix) (i j : Nat)
    (hr : m1.m_rows = m.m_rows) (hc : m1.m_columns = m.m_columns) (hz : m.m_rows = 0) :
    RowMatrix.read h1 m1 i j = RowMatrix.read h m i j := by
  have hn : ¬ (i < m.m_rows ∧ j < m.m_columns) := by omega
  rw [row_read_eq, row_read_eq, hr, hc]
  simp only [hn, if_false]

theorem col_read_null {α : Type} (h h1 : Heap α) (m m1 : BaseMatrix) (i j : Nat)
    (hr : m1.m_rows = m.m_rows) (hc : m1.m_columns = m.m_columns) (hz : m.m_rows = 0) :
    ColumnMatrix.read h1 m1 i j = ColumnMatrix.read h m i j := by
  have hn : ¬ (i < m.m_rows ∧ j < m.m_columns) := by omega
  rw [col_read_eq, col_read_eq, hr, hc]
  simp only [hn, if_false]

theorem row_write_frame {α : Type} (h : Heap α) (m : BaseMatrix) (i j : Nat) (v : α)
    (q : Nat) (hq : q ≠ m.m_data) :
    (RowMatrix.write h m i j v).2.block q = h.block q := by
  rw [row_write_eq]
  split
  · exact store_frame h _ v q hq
  · rfl

theorem col_write_frame {α : Type} (h : Heap α) (m : BaseMatrix) (i j : Nat) (v : α)
    (q : Nat) (hq : q ≠ m.m_data) :
    (ColumnMatrix.write h m i j v).2.block q = h.block q := by
  rw [col_write_eq]
  split
  · exact store_frame h _ v q hq
  · rfl

/-- What a successful copy construction leaves: the new object sits at a fresh
address, every older block is as it was, and the new block holds the elements
of the source. -/
theorem copy_ctor_post {α : Type} (al : Allocator α) (h : Heap α) (a b : BaseMatrix)
    (h1 : Heap α) (hv : a.valid h) (hok : BaseMatrix.copy_ctor al h a = (.ok b, h1)) :
    b.m_rows = a.m_rows ∧ b.m_columns = a.m_columns ∧ b.m_data = h.blocks.length + 1 ∧
    a.m_data ≤ h.blocks.length ∧
    (∀ p, p ≤ h.blocks.length → h1.block p = h.block p) ∧
    h1.block b.m_data = some ((h.block a.m_data).getD []) ∧
    (a.m_rows = 0 ∨ h1.block b.m_data = h.block a.m_data) ∧
    b.valid h1 := by
  obtain ⟨hb, hh⟩ := copy_ctor_ok_members al h a b h1 hv hok
  subst hb hh
  have hnew := block_append_new h (some ((h.block a.m_data).getD []))
  refine ⟨rfl, rfl, rfl, valid_data_le h a hv, ?_, hnew, ?_, ?_⟩
  · intro p hp
    exact block_append_old h _ p hp
  · rcases hv with ⟨_, hr, _⟩ | hv
    · exact Or.inl hr
    · right
      cases hb : h.block a.m_data with
      | none => rw [hb] at hv; simp at hv
      | some s => simpa [hb] using hnew
  · right
    show (Heap.block _ (h.blocks.length + 1)).map List.length = some (BaseMatrix.size _)
    rw [hnew]
    rcases hv with ⟨h0, hr, _⟩ | hv
    · simp [h0, block_zero, BaseMatrix.size, hr]
    · cases hb : h.block a.m_data with
      | none => rw [hb] at hv; simp at hv
      | some s =>
        rw [hb] at hv
        simpa [BaseMatrix.size] using hv

/-- C6: for a matrix `A` of either layout that satisfies the class invariant,
copy construction succeeds exactly when the allocation is granted; the copy `B`
then has the rows and columns of `A`, a buffer of its own, and reads at every
index what `A` reads; and after any write `B(i, j) = v` the buffer of `A` and
every read on `A` are what they were before the copy. -/
theorem copy_independence {α : Type} (al : Allocator α) (h : Heap α) (a : BaseMatrix)
    (hv : a.valid h) :
    (((∃ b h1, RowMatrix.copy_ctor al h a = (.ok b, h1)) ↔ al.admits a.size = true) ∧
      ∀ b h1, RowMatrix.copy_ctor al h a = (.ok b, h1) →
        b.rows = a.rows ∧ b.columns = a.columns ∧ b.begin ≠ a.begin ∧
        (∀ i j, RowMatrix.read h1 b i j = RowMatrix.read h a i j ∧
          RowMatrix.read h1 a i j = RowMatrix.read h a i j) ∧
        (∀ i j v, (RowMatrix.write h1 b i j v).2.block a.begin = h.block a.begin ∧
          ∀ k l, RowMatrix.read (RowMatrix.write h1 b i j v).2 a k l
            = RowMatrix.read h a k l)) ∧
    (((∃ b h1, ColumnMatrix.copy_ctor al h a = (.ok b, h1)) ↔ al.admits a.size = true) ∧
      ∀ b h1, ColumnMatrix.copy_ctor al h a = (.ok b, h1) →
        b.rows = a.rows ∧ b.columns = a.columns ∧ b.begin ≠ a.begin ∧
        (∀ i j, ColumnMatrix.read h1 b i j = ColumnMatrix.read h a i j ∧
          ColumnMatrix.read h1 a i j = ColumnMatrix.read h a i j) ∧
        (∀ i j v, (ColumnMatrix.write h1 b i j v).2.block a.begin = h.block a.begin ∧
          ∀ k l, ColumnMatrix.read (ColumnMatrix.write h1 b i j v).2 a k l
            = ColumnMatrix.read h a k l)) := by
  refine ⟨⟨copy_ctor_ok_iff al h a hv, ?_⟩, ⟨copy_ctor_ok_iff al h a hv, ?_⟩⟩
  · intro b h1 hok
    obtain ⟨hr, hc, hd, hle, hold, _, hnew, _⟩ := copy_ctor_post al h a b h1 hv hok
    have hne : a.m_data ≠ b.m_data := by omega
    refine ⟨hr, hc, fun he => hne he.symm, ?_, ?_⟩
    · intro i j
      refine ⟨?_, row_read_congr h h1 a a i j rfl rfl (hold _ hle)⟩
      rcases hnew with hz | hnew
      · exact row_read_null h h1 a b i j hr hc hz
      · exact row_read_congr h h1 a b i j hr hc hnew
    · intro i j v
      have hfr : (RowMatrix.write h1 b i j v).2.block a.m_data = h.block a.m_data := by
        rw [row_write_frame h1 b i j v a.m_data hne]
        exact hold _ hle
      exact ⟨hfr, fun k l => row_read_congr h _ a a k l rfl rfl hfr⟩
  · intro b h1 hok
    obtain ⟨hr, hc, hd, hle, hold, _, hnew, _⟩ := copy_ctor_post al h a b h1 hv hok
    have hne : a.m_data ≠ b.m_data := by omega
    refine ⟨hr, hc, fun he => hne he.symm, ?_, ?_⟩
    · intro i j
      refine ⟨?_, col_read_congr h h1 a a i j rfl rfl (hold _ hle)⟩
      rcases hnew with hz | hnew
      · exact col_read_null h h1 a b i j hr hc hz
      · exact col_read_congr h h1 a b i j hr hc hnew
    · intro i j v
      have hfr : (ColumnMatrix.write h1 b i j v).2.block a.m_data = h.block a.m_data := by
        rw [col_write_frame h1 b i j v a.m_data hne]
        exact hold _ hle
      exact ⟨hfr, fun k l => col_read_congr h _ a a k l rfl rfl hfr⟩

/-- C6 at the 3 by 3 matrix holding `1..9`: the copy lands at address `3`, reads
`1` at `(0, 0)`, and after `B(0, 0) = 42` the copy reads `42` there while the
original still reads `1`. -/
theorem copy_independence_witness :
    RowMatrix.copy_ctor smallAlloc heapAB rowA = (.ok ⟨3, 3, 3⟩, heapABA) ∧
    RowMatrix.read heapABA ⟨3, 3, 3⟩ 0 0 = RowMatrix.read heapAB rowA 0 0 ∧
    RowMatrix.read heapAB rowA 0 0 = .ok 1 ∧
    RowMatrix.read (RowMatrix.write heapABA ⟨3, 3, 3⟩ 0 0 42).2 ⟨3, 3, 3⟩ 0 0 = .ok 42 ∧
    RowMatrix.read (RowMatrix.write heapABA ⟨3, 3, 3⟩ 0 0 42).2 rowA 0 0
      = RowMatrix.read heapAB rowA 0 0 :=
  ⟨by decide,
    ((((copy_independence smallAlloc heapAB rowA (by decide)).1.2 ⟨3, 3, 3⟩ heapABA
      (by decide)).2.2.2.1) 0 0).1,
    by decide, by decide,
    ((((copy_independence smallAlloc heapAB rowA (by decide)).1.2 ⟨3, 3, 3⟩ heapABA
      (by decide)).2.2.2.2) 0 0 42).2 0 0⟩

/-! ## Assignment -/

theorem assign_refused_row {α : Type} (al : Allocator α) (h : Heap α)
    (self other : BaseMatrix) (hno : al.admits other.size = false) :
    RowMatrix.op_assign al h self other = (.bad_alloc, self, h) := by
  unfold RowMatrix.op_assign RowMatrix.copy_ctor
  rw [copy_ctor_refused al h other hno]

theorem assign_refused_col {α : Type} (al : Allocator α) (h : Heap α)
    (self other : BaseMatrix) (hno : al.admits other.size = false) :
    ColumnMatrix.op_assign al h self other = (.bad_alloc, self, h) := by
  unfold ColumnMatrix.op_assign ColumnMatrix.copy_ctor
  rw [copy_ctor_refused al h other hno]

/-- C5: for both layouts, when the allocation for the temporary copy of `other`
is refused, `this = other` ends in `std::bad_alloc` with the receiver's members
and the whole heap (so the receiver's and `other`'s buffers) exactly as before
the call. -/
theorem assign_strong_exception_safety {α : Type} (al : Allocator α) (h : Heap α)
    (self other : BaseMatrix) (hno : al.admits other.size = false) :
    RowMatrix.op_assign al h self other = (.bad_alloc, self, h) ∧
    ColumnMatrix.op_assign al h self other = (.bad_alloc, self, h) :=
  ⟨assign_refused_row al h self other hno, assign_refused_col al h self other hno⟩

/-- C5 at `rowB = rowA` with an allocator that refuses every request. -/
theorem assign_strong_exception_safety_witness :
    RowMatrix.op_assign noAlloc heapAB rowB rowA = (.bad_alloc, rowB, heapAB) ∧
    ColumnMatrix.op_assign noAlloc heapAB rowB rowA = (.bad_alloc, rowB, heapAB) :=
  assign_strong_exception_safety noAlloc heapAB rowB rowA (by decide)


theorem assign_granted_row {α : Type} (al : Allocator α) (h : Heap α)
    (self other : BaseMatrix) (ho : other.valid h) (hyes : al.admits other.size = true) :
    RowMatrix.op_assign al h self other =
      (.ok (), ⟨h.blocks.length + 1, other.m_rows, other.m_columns⟩,
        (⟨h.blocks ++ [some ((h.block other.m_data).getD [])]⟩ : Heap α).delete_array
          self.m_data) := by
  unfold RowMatrix.op_assign RowMatrix.copy_ctor
  rw [copy_ctor_granted al h other ho hyes]
  rfl

theorem assign_granted_col {α : Type} (al : Allocator α) (h : Heap α)
    (self other : BaseMatrix) (ho : other.valid h) (hyes : al.admits other.size = true) :
    ColumnMatrix.op_assign al h self other =
      (.ok (), ⟨h.blocks.length + 1, other.m_rows, other.m_columns⟩,
        (⟨h.blocks ++ [some ((h.block other.m_data).getD [])]⟩ : Heap α).delete_array
          self.m_data) := by
  unfold ColumnMatrix.op_assign ColumnMatrix.copy_ctor
  rw [copy_ctor_granted al h other ho hyes]
  rfl

theorem assign_row_eq_col {α : Type} (al : Allocator α) (h : Heap α)
    (self other : BaseMatrix) :
    ColumnMatrix.op_assign al h self other = RowMatrix.op_assign al h self other := rfl

/-- What a successful assignment leaves: the receiver has the rows and columns
of `other` and a fresh buffer with the elements of `other`; the receiver's old
buffer is released and every other block is as it was. -/
theorem assign_post {α : Type} (al : Allocator α) (h : Heap α)
    (self other self1 : BaseMatrix) (h1 : Heap α)
    (hs : self.valid h) (ho : other.valid h)
    (hok : RowMatrix.op_assign al h self other = (.ok (), self1, h1)) :
    al.admits other.size = true ∧
    self1 = ⟨h.blocks.length + 1, other.m_rows, other.m_columns⟩ ∧
    h1.block self1.m_data = some ((h.block other.m_data).getD []) ∧
    (other.m_rows = 0 ∨ h1.block self1.m_data = h.block other.m_data) ∧
    self1.valid h1 ∧
    (∀ p, p ≤ h.blocks.length → p ≠ self.m_data → h1.block p = h.block p) := by
  have hyes : al.admits other.size = true := by
    by_contra hno
    rw [assign_refused_row al h self other (by simpa using hno)] at hok
    simp at hok
  rw [assign_granted_row al h self other ho hyes] at hok
  simp only [Prod.mk.injEq, true_and] at hok
  obtain ⟨hm, hh⟩ := hok
  subst hm hh
  have hsle := valid_data_le h self hs
  have hnew : (Heap.delete_array
      (⟨h.blocks ++ [some ((h.block other.m_data).getD [])]⟩ : Heap α) self.m_data).block
      (h.blocks.length + 1) = some ((h.block other.m_data).getD []) := by
    rw [delete_block_other _ _ _ (by omega)]
    exact block_append_new h _
  refine ⟨hyes, rfl, hnew, ?_, ?_, ?_⟩
  · rcases ho with ⟨_, hr, _⟩ | ho
    · exact Or.inl hr
    · right
      cases hb : h.block other.m_data with
      | none => rw [hb] at ho; simp at ho
      | some s => simpa [hb] using hnew
  · right
    show (Heap.block _ (h.blocks.length + 1)).map List.length = some (BaseMatrix.size _)
    rw [hnew]
    rcases ho with ⟨h0, hr, _⟩ | ho
    · simp [h0, block_zero, BaseMatrix.size, hr]
    · cases hb : h.block other.m_data with
      | none => rw [hb] at ho; simp at ho
      | some s =>
        rw [hb] at ho
        simpa [BaseMatrix.size] using ho
  · intro p hp hne
    rw [delete_block_other _ _ _ hne]
    exact block_append_old h _ p hp

/-- C4: for a receiver `B` and a source `A` of the same layout, both satisfying
the class invariant and of any dimensions, `B = A` succeeds exactly when the
allocation for the temporary is granted; afterwards `B` has the rows and
columns of `A` and reads at every index what `A` read before, and, `A` being an
object other than `B` (their buffers differ unless `B` has none), the buffer of
`A` and every read on `A` are unchanged. -/
theorem assign_result {α : Type} (al : Allocator α) (h : Heap α)
    (b a : BaseMatrix) (hb : b.valid h) (ha : a.valid h) :
    (((∃ b1 h1, RowMatrix.op_assign al h b a = (.ok (), b1, h1)) ↔
        al.admits a.size = true) ∧
      ∀ b1 h1, RowMatrix.op_assign al h b a = (.ok (), b1, h1) →
        b1.rows = a.rows ∧ b1.columns = a.columns ∧
        (∀ i j, RowMatrix.read h1 b1 i j = RowMatrix.read h a i j) ∧
        ((b.begin = a.begin → b.begin = 0) →
          h1.block a.begin = h.block a.begin ∧
          ∀ i j, RowMatrix.read h1 a i j = RowMatrix.read h a i j)) ∧
    (((∃ b1 h1, ColumnMatrix.op_assign al h b a = (.ok (), b1, h1)) ↔
        al.admits a.size = true) ∧
      ∀ b1 h1, ColumnMatrix.op_assign al h b a = (.ok (), b1, h1) →
        b1.rows = a.rows ∧ b1.columns = a.columns ∧
        (∀ i j, ColumnMatrix.read h1 b1 i j = ColumnMatrix.read h a i j) ∧
        ((b.begin = a.begin → b.begin = 0) →
          h1.block a.begin = h.block a.begin ∧
          ∀ i j, ColumnMatrix.read h1 a i j = ColumnMatrix.read h a i j)) := by
  have hiff : (∃ b1 h1, RowMatrix.op_assign al h b a = (.ok (), b1, h1)) ↔
      al.admits a.size = true := by
    constructor
    · rintro ⟨b1, h1, hok⟩
      exact (assign_post al h b a b1 h1 hb ha hok).1
    · intro hyes
      exact ⟨_, _, assign_granted_row al h b a ha hyes⟩
  have hframe : ∀ b1 h1, RowMatrix.op_assign al h b a = (.ok (), b1, h1) →
      (b.m_data = a.m_data → b.m_data = 0) → h1.block a.m_data = h.block a.m_data := by
    intro b1 h1 hok hdis
    obtain ⟨_, _, _, _, _, hold⟩ := assign_post al h b a b1 h1 hb ha hok
    by_cases h0 : a.m_data = 0
    · rw [h0]; rfl
    · exact hold _ (valid_data_le h a ha) (fun he => h0 (by rw [he]; exact hdis he.symm))
  refine ⟨⟨hiff, ?_⟩, ⟨hiff, ?_⟩⟩
  · intro b1 h1 hok
    obtain ⟨_, hm, _, hnew, _, _⟩ := assign_post al h b a b1 h1 hb ha hok
    have hr : b1.m_rows = a.m_rows := by rw [hm]
    have hc : b1.m_columns = a.m_columns := by rw [hm]
    refine ⟨hr, hc, ?_, ?_⟩
    · intro i j
      rcases hnew with hz | hnew
      · exact row_read_null h h1 a b1 i j hr hc hz
      · exact row_read_congr h h1 a b1 i j hr hc hnew
    · intro hdis
      have hfr := hframe b1 h1 hok hdis
      exact ⟨hfr, fun i j => row_read_congr h h1 a a i j rfl rfl hfr⟩
  · intro b1 h1 hok
    rw [assign_row_eq_col] at hok
    obtain ⟨_, hm, _, hnew, _, _⟩ := assign_post al h b a b1 h1 hb ha hok
    have hr : b1.m_rows = a.m_rows := by rw [hm]
    have hc : b1.m_columns = a.m_columns := by rw [hm]
    refine ⟨hr, hc, ?_, ?_⟩
    · intro i j
      rcases hnew with hz | hnew
      · exact col_read_null h h1 a b1 i j hr hc hz
      · exact col_read_congr h h1 a b1 i j hr hc hnew
    · intro hdis
      have hfr := hframe b1 h1 hok hdis
      exact ⟨hfr, fun i j => col_read_congr h h1 a a i j rfl rfl hfr⟩

/-- C4 at the scenario of the specification: `rowA` is 3 by 3 and holds `1..9`,
`rowB` is 2 by 2; after `rowB = rowA` the receiver has 3 rows and 3 columns,
reads `5` at `(1, 1)` and `9` at `(2, 2)`, and `rowA` still reads `5` at
`(1, 1)`. -/
theorem assign_result_witness :
    RowMatrix.op_assign smallAlloc heapAB rowB rowA = (.ok (), ⟨3, 3, 3⟩, heapAfterAssign) ∧
    BaseMatrix.rows ⟨3, 3, 3⟩ = 3 ∧ BaseMatrix.columns ⟨3, 3, 3⟩ = 3 ∧
    RowMatrix.read heapAfterAssign ⟨3, 3, 3⟩ 1 1 = RowMatrix.read heapAB rowA 1 1 ∧
    RowMatrix.read heapAB rowA 1 1 = .ok 5 ∧
    RowMatrix.read heapAfterAssign ⟨3, 3, 3⟩ 2 2 = RowMatrix.read heapAB rowA 2 2 ∧
    RowMatrix.read heapAB rowA 2 2 = .ok 9 ∧
    RowMatrix.read heapAfterAssign rowA 1 1 = RowMatrix.read heapAB rowA 1 1 :=
  ⟨by decide, rfl, rfl,
    ((assign_result smallAlloc heapAB rowB rowA (by decide) (by decide)).1.2 ⟨3, 3, 3⟩
      heapAfterAssign (by decide)).2.2.1 1 1,
    by decide,
    ((assign_result smallAlloc heapAB rowB rowA (by decide) (by decide)).1.2 ⟨3, 3, 3⟩
      heapAfterAssign (by decide)).2.2.1 2 2,
    by decide,
    (((assign_result smallAlloc heapAB rowB rowA (by decide) (by decide)).1.2 ⟨3, 3, 3⟩
      heapAfterAssign (by decide)).2.2.2 (by decide)).2 1 1⟩


/-! ## The class invariant along a program -/

theorem valid_of_length {α : Type} (h h1 : Heap α) (m : BaseMatrix) (hv : m.valid h)
    (hl : (h1.block m.m_data).map List.length = (h.block m.m_data).map List.length) :
    m.valid h1 := by
  unfold BaseMatrix.valid at *
  rw [hl]
  exact hv

theorem valid_null_iff {α : Type} (h : Heap α) (m : BaseMatrix) (h0 : m.m_data = 0) :
    m.valid h ↔ m.m_rows = 0 ∧ m.m_columns = 0 := by
  unfold BaseMatrix.valid
  simp [h0, block_zero]

theorem getElem?_push {β : Type} (xs : List β) (x y : β) (i : Nat)
    (hi : (xs ++ [x])[i]? = some y) :
    (i < xs.length ∧ xs[i]? = some y) ∨ (i = xs.length ∧ y = x) := by
  by_cases hlt : i < xs.length
  · rw [List.getElem?_append_left hlt] at hi
    exact Or.inl ⟨hlt, hi⟩
  · have hge : xs.length ≤ i := by omega
    rw [List.getElem?_append_right hge] at hi
    by_cases he : i = xs.length
    · subst he
      simp at hi
      exact Or.inr ⟨rfl, hi.symm⟩
    · have : i - xs.length ≠ 0 := by omega
      obtain ⟨k, hk⟩ : ∃ k, i - xs.length = k + 1 := ⟨i - xs.length - 1, by omega⟩
      rw [hk] at hi
      simp at hi

/-- Adding an object that owns a fresh block, while every older block keeps its
place and contents, preserves the invariant. -/
theorem inv_push {α : Type} (w : World α) (h1 : Heap α) (l : Layout) (m : BaseMatrix)
    (hw : w.inv) (hold : ∀ p, p ≤ w.heap.blocks.length → h1.block p = w.heap.block p)
    (hd : m.m_data = w.heap.blocks.length + 1) (hm : m.valid h1) :
    World.inv ⟨h1, w.objs ++ [(l, m)]⟩ := by
  obtain ⟨hval, hdis⟩ := hw
  have hle : ∀ (i : Nat) (l0 : Layout) (m0 : BaseMatrix), w.objs[i]? = some (l0, m0) →
      m0.m_data ≤ w.heap.blocks.length :=
    fun i l0 m0 hi => valid_data_le w.heap m0 (hval i l0 m0 hi)
  constructor
  · intro i l0 m0 hi
    rcases getElem?_push _ _ _ _ hi with ⟨_, hi⟩ | ⟨_, he⟩
    · exact valid_congr w.heap h1 m0 (hold _ (hle i l0 m0 hi)) (hval i l0 m0 hi)
    · simp only [Prod.mk.injEq] at he
      rw [he.2]; exact hm
  · intro i j l1 l2 m1 m2 hij hi hj he
    rcases getElem?_push _ _ _ _ hi with ⟨_, hi⟩ | ⟨hi1, hi2⟩
    · rcases getElem?_push _ _ _ _ hj with ⟨_, hj⟩ | ⟨_, hj2⟩
      · exact hdis i j l1 l2 m1 m2 hij hi hj he
      · simp only [Prod.mk.injEq] at hj2
        have := hle i l1 m1 hi
        rw [hj2.2] at he
        omega
    · rcases getElem?_push _ _ _ _ hj with ⟨_, hj⟩ | ⟨hj1, _⟩
      · simp only [Prod.mk.injEq] at hi2
        have := hle j l2 m2 hj
        rw [hi2.2] at he
        omega
      · omega

theorem layout_ctor_eq {α : Type} (l : Layout) (al : Allocator α) (h : Heap α) (r c : Nat) :
    l.ctor al h r c = BaseMatrix.ctor al h r c := by
  cases l <;> rfl

theorem layout_copy_ctor_eq {α : Type} (l : Layout) (al : Allocator α) (h : Heap α)
    (a : BaseMatrix) : l.copy_ctor al h a = BaseMatrix.copy_ctor al h a := by
  cases l <;> rfl

theorem layout_move_ctor_eq (l : Layout) (a : BaseMatrix) :
    l.move_ctor a = (a, ⟨0, 0, 0⟩) := by
  cases l <;> rfl

theorem layout_op_assign_eq {α : Type} (l : Layout) (al : Allocator α) (h : Heap α)
    (self other : BaseMatrix) :
    l.op_assign al h self other = RowMatrix.op_assign al h self other := by
  cases l <;> rfl

theorem ctor_valid {α : Type} (al : Allocator α) (h : Heap α) (r c : Nat) :
    BaseMatrix.valid
      (⟨h.blocks ++ [some ((List.range ((r * c) % SIZE_MOD)).map al.fresh)]⟩ : Heap α)
      ⟨h.blocks.length + 1, r, c⟩ := by
  right
  show (Heap.block _ (h.blocks.length + 1)).map List.length = some (BaseMatrix.size _)
  rw [block_append_new]
  simp [BaseMatrix.size]

theorem inv_construct {α : Type} (w : World α) (al : Allocator α) (l : Layout) (r c : Nat)
    (hw : w.inv) : (w.exec (.construct al l r c)).inv := by
  unfold World.exec
  simp only [layout_ctor_eq, ctor_eq]
  by_cases ha : al.admits ((r * c) % SIZE_MOD) = true
  · simp only [ha, if_true]
    exact inv_push w _ l _ hw (fun p hp => block_append_old _ _ p hp) rfl (ctor_valid al _ r c)
  · simp only [ha]
    exact hw

theorem inv_copy_construct {α : Type} (w : World α) (al : Allocator α) (src : Nat)
    (hw : w.inv) : (w.exec (.copy_construct al src)).inv := by
  unfold World.exec
  simp only
  cases hs : w.objs[src]? with
  | none => exact hw
  | some x =>
    obtain ⟨l, a⟩ := x
    have hv := hw.1 src l a hs
    simp only [layout_copy_ctor_eq]
    by_cases ha : al.admits a.size = true
    · have hok := copy_ctor_granted al w.heap a hv ha
      obtain ⟨_, _, hd, _, hold, _, _, hvb⟩ := copy_ctor_post al w.heap a _ _ hv hok
      rw [hok]
      exact inv_push w _ l _ hw hold hd hvb
    · rw [copy_ctor_refused al w.heap a (by simpa using ha)]
      exact hw


theorem getElem?_set_cases {β : Type} (xs : List β) (k i : Nat) (x y : β)
    (hi : (xs.set k x)[i]? = some y) :
    (i = k ∧ y = x ∧ k < xs.length) ∨ (i ≠ k ∧ xs[i]? = some y) := by
  rw [List.getElem?_set] at hi
  by_cases hk : k = i
  · subst hk
    by_cases hl : k < xs.length
    · simp only [hl, if_true, Option.some.injEq] at hi
      exact Or.inl ⟨rfl, hi.symm, hl⟩
    · simp [hl] at hi
  · simp only [hk, if_false] at hi
    exact Or.inr ⟨fun h => hk h.symm, hi⟩

/-- Adding an object whose buffer no existing object owns preserves the
invariant. -/
theorem inv_add {α : Type} (w : World α) (l : Layout) (m : BaseMatrix) (hw : w.inv)
    (hm : m.valid w.heap)
    (hfresh : ∀ (i : Nat) (l0 : Layout) (m0 : BaseMatrix), w.objs[i]? = some (l0, m0) →
      m0.m_data = m.m_data → m.m_data = 0) :
    World.inv ⟨w.heap, w.objs ++ [(l, m)]⟩ := by
  obtain ⟨hval, hdis⟩ := hw
  constructor
  · intro i l0 m0 hi
    rcases getElem?_push _ _ _ _ hi with ⟨_, hi⟩ | ⟨_, he⟩
    · exact hval i l0 m0 hi
    · simp only [Prod.mk.injEq] at he
      rw [he.2]; exact hm
  · intro i j l1 l2 m1 m2 hij hi hj he
    rcases getElem?_push _ _ _ _ hi with ⟨_, hi⟩ | ⟨hi1, hi2⟩
    · rcases getElem?_push _ _ _ _ hj with ⟨_, hj⟩ | ⟨_, hj2⟩
      · exact hdis i j l1 l2 m1 m2 hij hi hj he
      · simp only [Prod.mk.injEq] at hj2
        rw [hj2.2] at he
        rw [he]
        exact hfresh i l1 m1 hi he
    · rcases getElem?_push _ _ _ _ hj with ⟨_, hj⟩ | ⟨hj1, _⟩
      · simp only [Prod.mk.injEq] at hi2
        rw [hi2.2] at he ⊢
        exact hfresh j l2 m2 hj he.symm
      · omega

/-- Replacing the members of one object, and the heap, preserves the invariant
when the new members are valid in the new heap, the other objects stay valid,
and none of them owns the new buffer. -/
theorem inv_replace {α : Type} (w : World α) (h1 : Heap α) (dst : Nat) (l : Layout)
    (self1 : BaseMatrix) (hw : w.inv) (hself : self1.valid h1)
    (hothers : ∀ (i : Nat) (l0 : Layout) (m0 : BaseMatrix), i ≠ dst →
      w.objs[i]? = some (l0, m0) → m0.valid h1)
    (hfresh : ∀ (i : Nat) (l0 : Layout) (m0 : BaseMatrix), i ≠ dst →
      w.objs[i]? = some (l0, m0) → m0.m_data = self1.m_data → self1.m_data = 0) :
    World.inv ⟨h1, w.objs.set dst (l, self1)⟩ := by
  obtain ⟨hval, hdis⟩ := hw
  constructor
  · intro i l0 m0 hi
    rcases getElem?_set_cases _ _ _ _ _ hi with ⟨_, he, _⟩ | ⟨hne, hi⟩
    · simp only [Prod.mk.injEq] at he
      rw [he.2]; exact hself
    · exact hothers i l0 m0 hne hi
  · intro i j l1 l2 m1 m2 hij hi hj he
    rcases getElem?_set_cases _ _ _ _ _ hi with ⟨hi1, hi2, _⟩ | ⟨hine, hi⟩
    · rcases getElem?_set_cases _ _ _ _ _ hj with ⟨hj1, _, _⟩ | ⟨hjne, hj⟩
      · omega
      · simp only [Prod.mk.injEq] at hi2
        rw [hi2.2] at he ⊢
        exact hfresh j l2 m2 hjne hj he.symm
    · rcases getElem?_set_cases _ _ _ _ _ hj with ⟨_, hj2, _⟩ | ⟨hjne, hj⟩
      · simp only [Prod.mk.injEq] at hj2
        rw [hj2.2] at he
        rw [he]
        exact hfresh i l1 m1 hine hi he
      · exact hdis i j l1 l2 m1 m2 hij hi hj he

theorem valid_reset {α : Type} (h : Heap α) : BaseMatrix.valid h ⟨0, 0, 0⟩ :=
  Or.inl ⟨rfl, rfl, rfl⟩

theorem inv_move_construct {α : Type} (w : World α) (src : Nat) (hw : w.inv) :
    (w.exec (.move_construct src)).inv := by
  unfold World.exec
  simp only
  cases hs : w.objs[src]? with
  | none => exact hw
  | some x =>
    obtain ⟨l, a⟩ := x
    simp only [layout_move_ctor_eq]
    have hw1 : World.inv ⟨w.heap, w.objs.set src (l, ⟨0, 0, 0⟩)⟩ :=
      inv_replace w w.heap src l ⟨0, 0, 0⟩ hw (valid_reset w.heap)
        (fun i l0 m0 _ hi => hw.1 i l0 m0 hi) (fun _ _ _ _ _ _ => rfl)
    refine inv_add ⟨w.heap, w.objs.set src (l, ⟨0, 0, 0⟩)⟩ l a hw1 (hw.1 src l a hs) ?_
    intro i l0 m0 hi he
    rcases getElem?_set_cases _ _ _ _ _ hi with ⟨_, hi2, _⟩ | ⟨hne, hi⟩
    · simp only [Prod.mk.injEq] at hi2
      rw [hi2.2] at he
      exact he.symm
    · exact hw.2 src i l l0 a m0 (fun h => hne h.symm) hs hi he.symm

theorem inv_assign {α : Type} (w : World α) (al : Allocator α) (dst src : Nat)
    (hw : w.inv) : (w.exec (.assign al dst src)).inv := by
  unfold World.exec
  simp only
  cases hd : w.objs[dst]? with
  | none => exact hw
  | some x =>
    obtain ⟨l, self⟩ := x
    cases hs : w.objs[src]? with
    | none => exact hw
    | some y =>
      obtain ⟨l2, other⟩ := y
      simp only
      by_cases hl : l = l2
      · simp only [hl, if_true, layout_op_assign_eq]
        have hvs := hw.1 dst l self hd
        have hvo := hw.1 src l2 other hs
        by_cases ha : al.admits other.size = true
        · have hok := assign_granted_row al w.heap self other hvo ha
          obtain ⟨_, hm, _, _, hv1, hold⟩ := assign_post al w.heap self other _ _ hvs hvo hok
          rw [hok]
          refine inv_replace w _ dst l2 _ hw hv1 ?_ ?_
          · intro i l0 m0 hne hi
            have hv0 := hw.1 i l0 m0 hi
            by_cases h0 : m0.m_data = 0
            · exact (valid_null_iff _ m0 h0).mpr ((valid_null_iff _ m0 h0).mp hv0)
            · have hne2 : m0.m_data ≠ self.m_data :=
                fun he => h0 (hw.2 i dst l0 l m0 self hne hi hd he)
              exact valid_congr w.heap _ m0 (hold _ (valid_data_le _ m0 hv0) hne2) hv0
          · intro i l0 m0 _ hi he
            have := valid_data_le _ m0 (hw.1 i l0 m0 hi)
            simp only at he
            omega
        · rw [assign_refused_row al w.heap self other (by simpa using ha)]
          exact inv_replace w _ dst l2 _ hw hvs (fun i l0 m0 _ hi => hw.1 i l0 m0 hi)
            (fun i l0 m0 hne hi he =>
              he ▸ hw.2 i dst l0 l m0 self hne hi hd he)
      · simp only [hl, if_false]
        exact hw

theorem layout_write_length {α : Type} (l : Layout) (h : Heap α) (m : BaseMatrix)
    (row column : Nat) (v : α) (q : Nat) :
    ((l.write h m row column v).2.block q).map List.length =
      (h.block q).map List.length := by
  cases l
  · show ((RowMatrix.write h m row column v).2.block q).map List.length = _
    rw [row_write_eq]
    split
    · exact store_length h _ v q
    · rfl
  · show ((ColumnMatrix.write h m row column v).2.block q).map List.length = _
    rw [col_write_eq]
    split
    · exact store_length h _ v q
    · rfl

theorem inv_write {α : Type} (w : World α) (obj row column : Nat) (v : α)
    (hw : w.inv) : (w.exec (.write obj row column v)).inv := by
  unfold World.exec
  simp only
  cases hs : w.objs[obj]? with
  | none => exact hw
  | some x =>
    obtain ⟨l, m⟩ := x
    exact ⟨fun i l0 m0 hi => valid_of_length w.heap _ m0 (hw.1 i l0 m0 hi)
      (layout_write_length l w.heap m row column v m0.m_data), hw.2⟩

theorem inv_destroy {α : Type} (w : World α) (obj : Nat) (hw : w.inv) :
    (w.exec (.destroy obj)).inv := by
  unfold World.exec
  simp only
  cases hs : w.objs[obj]? with
  | none => exact hw
  | some x =>
    obtain ⟨l, m⟩ := x
    simp only
    have hidx : ∀ (i : Nat) (y : Layout × BaseMatrix), (w.objs.eraseIdx obj)[i]? = some y →
        ∃ k, k ≠ obj ∧ w.objs[k]? = some y ∧ (i < obj → k = i) ∧ (¬ i < obj → k = i + 1) := by
      intro i y hi
      rw [List.getElem?_eraseIdx] at hi
      by_cases hlt : i < obj
      · simp only [hlt, if_true] at hi
        exact ⟨i, by omega, hi, fun _ => rfl, fun h => absurd hlt h⟩
      · simp only [hlt, if_false] at hi
        exact ⟨i + 1, by omega, hi, fun h => absurd h hlt, fun _ => rfl⟩
    constructor
    · intro i l0 m0 hi
      obtain ⟨k, hk, hi, _, _⟩ := hidx i _ hi
      have hv0 := hw.1 k l0 m0 hi
      by_cases h0 : m0.m_data = 0
      · exact (valid_null_iff _ m0 h0).mpr ((valid_null_iff _ m0 h0).mp hv0)
      · have hne2 : m0.m_data ≠ m.m_data :=
          fun he => h0 (hw.2 k obj l0 l m0 m hk hi hs he)
        exact valid_congr w.heap _ m0 (delete_block_other _ _ _ hne2) hv0
    · intro i j l1 l2 m1 m2 hij hi hj he
      obtain ⟨k1, _, hi, hi1, hi2⟩ := hidx i _ hi
      obtain ⟨k2, _, hj, hj1, hj2⟩ := hidx j _ hj
      have hk : k1 ≠ k2 := by
        by_cases h1 : i < obj <;> by_cases h2 : j < obj
        · have := hi1 h1; have := hj1 h2; omega
        · have := hi1 h1; have := hj2 h2; omega
        · have := hi2 h1; have := hj1 h2; omega
        · have := hi2 h1; have := hj2 h2; omega
      exact hw.2 k1 k2 l1 l2 m1 m2 hk hi hj he

theorem inv_exec {α : Type} (w : World α) (op : Op α) (hw : w.inv) : (w.exec op).inv := by
  cases op with
  | construct al l r c => exact inv_construct w al l r c hw
  | copy_construct al src => exact inv_copy_construct w al src hw
  | move_construct src => exact inv_move_construct w src hw
  | assign al dst src => exact inv_assign w al dst src hw
  | write obj row column v => exact inv_write w obj row column v hw
  | destroy obj => exact inv_destroy w obj hw

theorem inv_run {α : Type} (ops : List (Op α)) (w : World α) (hw : w.inv) :
    (w.run ops).inv := by
  induction ops generalizing w with
  | nil => exact hw
  | cons op rest ih => exact ih (w.exec op) (inv_exec w op hw)

theorem inv_init {α : Type} : (World.init : World α).inv := by
  constructor
  · intro i l m hi
    simp [World.init] at hi
  · intro i j l1 l2 m1 m2 _ hi
    simp [World.init] at hi


/-- C9, the claim as stated fails: after the single operation
`RowMatrix(2 ^ 32, 2 ^ 32)` the program holds one live matrix whose buffer has no
elements, while `rows() * columns()` is `2 ^ 64`. -/
theorem buffer_length_wraps :
    ((World.init : World Nat).run wrapOps).objs = [(.row, wrapZero)] ∧
    ((World.init : World Nat).run wrapOps).heap.block wrapZero.begin = some [] ∧
    wrapZero.begin ≠ 0 ∧
    ([] : List Nat).length ≠ wrapZero.rows * wrapZero.columns := by
  decide

/-- C9, amended: in every state reached from the empty program by constructing,
copy-constructing, move-constructing, assigning, writing elements and
destroying, each matrix object either is in the moved-from state (`m_data`
null, `rows() == columns() == 0`, no buffer) or owns a live buffer whose number
of elements is `size()`, that is `rows() * columns() mod 2 ^ 64`, which is
`rows() * columns()` whenever that product is below `2 ^ 64`. -/
theorem buffer_length_invariant {α : Type} (ops : List (Op α)) (i : Nat) (l : Layout)
    (m : BaseMatrix) (hm : ((World.init : World α).run ops).objs[i]? = some (l, m)) :
    (m.begin = 0 ∧ m.rows = 0 ∧ m.columns = 0 ∧
      ((World.init : World α).run ops).heap.block m.begin = none) ∨
    (∃ b, ((World.init : World α).run ops).heap.block m.begin = some b ∧
      b.length = m.size ∧ b.length = (m.rows * m.columns) % SIZE_MOD ∧
      (m.rows * m.columns < SIZE_MOD → b.length = m.rows * m.columns)) := by
  have hv := (inv_run ops World.init inv_init).1 i l m hm
  rcases hv with ⟨h0, hr, hc⟩ | hv
  · left
    refine ⟨h0, hr, hc, ?_⟩
    show Heap.block _ m.m_data = none
    rw [h0]; rfl
  · right
    cases hb : ((World.init : World α).run ops).heap.block m.m_data with
    | none => rw [hb] at hv; simp at hv
    | some b =>
      rw [hb] at hv
      simp only [Option.map_some', Option.some.injEq] at hv
      refine ⟨b, hb, hv, hv, ?_⟩
      intro hlt
      rw [hv]
      exact Nat.mod_eq_of_lt hlt

/-- C9, amended, along a program that constructs a 2 by 3 row-major matrix,
writes to it, copies it, assigns the copy back and moves the original away: the
moved-from object `0` has no buffer, the move target `2` owns six elements. -/
theorem buffer_length_invariant_witness :
    ((World.init : World Nat).run demoOps).objs[0]? = some (.row, ⟨0, 0, 0⟩) ∧
    ((World.init : World Nat).run demoOps).objs[2]? = some (.row, ⟨3, 2, 3⟩) ∧
    ((World.init : World Nat).run demoOps).heap.block 3 = some [0, 0, 0, 0, 7, 0] ∧
    (∃ b, ((World.init : World Nat).run demoOps).heap.block 3 = some b ∧
      b.length = BaseMatrix.size ⟨3, 2, 3⟩ ∧ b.length = (2 * 3) % SIZE_MOD ∧
      (2 * 3 < SIZE_MOD → b.length = 2 * 3)) :=
  ⟨by decide, by decide, by decide,
    (buffer_length_invariant demoOps 2 .row ⟨3, 2, 3⟩ (by decide)).resolve_left
      (by decide)⟩


/-! ## Writing and reading back -/

theorem offset_injective (c i j k l : Nat) (hj : j < c) (hl : l < c)
    (he : j + i * c = l + k * c) : i = k ∧ j = l := by
  have hc : 0 < c := by omega
  have h1 : (j + i * c) % c = j := by
    rw [Nat.add_mul_mod_self_right]; exact Nat.mod_eq_of_lt hj
  have h2 : (l + k * c) % c = l := by
    rw [Nat.add_mul_mod_self_right]; exact Nat.mod_eq_of_lt hl
  have h3 : (j + i * c) / c = i := by
    rw [Nat.add_mul_div_right _ _ hc, Nat.div_eq_of_lt hj]; omega
  have h4 : (l + k * c) / c = k := by
    rw [Nat.add_mul_div_right _ _ hc, Nat.div_eq_of_lt hl]; omega
  rw [he] at h1 h3
  exact ⟨by omega, by omega⟩

/-- In a live buffer a store at position `p` is read back at `p` and leaves
every other position, and every other block, as it was. -/
theorem load_after_store {α : Type} (h : Heap α) (p k : Nat) (b : List α) (v : α)
    (hb : h.block p = some b) (hk : k < b.length) :
    ∃ h1, h.store ⟨p, k⟩ v = (.ok (), h1) ∧ h1.block p = some (b.set k v) ∧
      h1.load ⟨p, k⟩ = .ok v ∧
      (∀ q, q ≠ k → h1.load ⟨p, q⟩ = h.load ⟨p, q⟩) ∧
      (∀ q, q ≠ p → h1.block q = h.block q) := by
  obtain ⟨h1, hst, hblk, hfr⟩ := block_after_store h p k b v hb hk
  refine ⟨h1, hst, hblk, ?_, ?_, hfr⟩
  · rw [load_of_block h1 p k _ hblk, List.getElem?_set_self hk]
  · intro q hq
    rw [load_of_block h1 p q _ hblk, load_of_block h p q b hb,
      List.getElem?_set_ne (fun he => hq he.symm)]

theorem valid_after_store {α : Type} (h h1 : Heap α) (m : BaseMatrix) (r : Ref) (v : α)
    (o : Outcome Unit) (hst : h.store r v = (o, h1)) (hv : m.valid h) : m.valid h1 := by
  have hl := store_length h r v m.m_data
  rw [hst] at hl
  exact valid_of_length h h1 m hv hl

/-- A write at a valid index of a row-major matrix whose element count does
not wrap: it succeeds, is read back, and changes nothing else. -/
theorem row_write_law {α : Type} (h : Heap α) (m : BaseMatrix) (i j : Nat) (v : α)
    (hv : m.valid h) (hno : m.m_rows * m.m_columns < SIZE_MOD)
    (hi : i < m.m_rows) (hj : j < m.m_columns) :
    ∃ h1, RowMatrix.write h m i j v = (.ok (), h1) ∧
      RowMatrix.read h1 m i j = .ok v ∧ m.valid h1 ∧
      (∀ k l, k < m.m_rows → l < m.m_columns → (k, l) ≠ (i, j) →
        RowMatrix.read h1 m k l = RowMatrix.read h m k l) ∧
      (∀ q, q ≠ m.m_data → h1.block q = h.block q) := by
  have hc : i < m.m_rows ∧ j < m.m_columns := ⟨hi, hj⟩
  obtain ⟨b, hb, hlen⟩ := valid_live h m hv (by omega)
  have hsize : m.size = m.m_rows * m.m_columns := Nat.mod_eq_of_lt hno
  rw [hsize] at hlen
  have hlt := offset_lt m.m_rows m.m_columns i j hi hj
  have hmod : (j + i * m.m_columns) % SIZE_MOD = j + i * m.m_columns :=
    Nat.mod_eq_of_lt (by omega)
  obtain ⟨h1, hst, _, hsame, hother, hfr⟩ :=
    load_after_store h m.m_data (j + i * m.m_columns) b v hb (by omega)
  refine ⟨h1, ?_, ?_, valid_after_store h h1 m _ v _ hst hv, ?_, hfr⟩
  · rw [row_write_eq]; simp only [hc, and_self, if_true, hmod]; exact hst
  · rw [row_read_eq]; simp only [hc, and_self, if_true, hmod]; exact hsame
  · intro k l hk hl hne
    have hlt2 := offset_lt m.m_rows m.m_columns k l hk hl
    have hmod2 : (l + k * m.m_columns) % SIZE_MOD = l + k * m.m_columns :=
      Nat.mod_eq_of_lt (by omega)
    have hkl : k < m.m_rows ∧ l < m.m_columns := ⟨hk, hl⟩
    rw [row_read_eq, row_read_eq]
    simp only [hkl, and_self, if_true, hmod2]
    apply hother
    intro he
    obtain ⟨e1, e2⟩ := offset_injective m.m_columns k l i j hl hj he
    exact hne (by rw [e1, e2])

/-- A write at a valid index of a column-major matrix whose element count does
not wrap: it succeeds, is read back, and changes nothing else. -/
theorem col_write_law {α : Type} (h : Heap α) (m : BaseMatrix) (i j : Nat) (v : α)
    (hv : m.valid h) (hno : m.m_rows * m.m_columns < SIZE_MOD)
    (hi : i < m.m_rows) (hj : j < m.m_columns) :
    ∃ h1, ColumnMatrix.write h m i j v = (.ok (), h1) ∧
      ColumnMatrix.read h1 m i j = .ok v ∧ m.valid h1 ∧
      (∀ k l, k < m.m_rows → l < m.m_columns → (k, l) ≠ (i, j) →
        ColumnMatrix.read h1 m k l = ColumnMatrix.read h m k l) ∧
      (∀ q, q ≠ m.m_data → h1.block q = h.block q) := by
  have hc : i < m.m_rows ∧ j < m.m_columns := ⟨hi, hj⟩
  obtain ⟨b, hb, hlen⟩ := valid_live h m hv (by omega)
  have hsize : m.size = m.m_rows * m.m_columns := Nat.mod_eq_of_lt hno
  rw [hsize] at hlen
  have hcomm : m.m_columns * m.m_rows = m.m_rows * m.m_columns := Nat.mul_comm _ _
  have hlt := offset_lt m.m_columns m.m_rows j i hj hi
  have hmod : (i + j * m.m_rows) % SIZE_MOD = i + j * m.m_rows :=
    Nat.mod_eq_of_lt (by omega)
  obtain ⟨h1, hst, _, hsame, hother, hfr⟩ :=
    load_after_store h m.m_data (i + j * m.m_rows) b v hb (by omega)
  refine ⟨h1, ?_, ?_, valid_after_store h h1 m _ v _ hst hv, ?_, hfr⟩
  · rw [col_write_eq]; simp only [hc, and_self, if_true, hmod]; exact hst
  · rw [col_read_eq]; simp only [hc, and_self, if_true, hmod]; exact hsame
  · intro k l hk hl hne
    have hlt2 := offset_lt m.m_columns m.m_rows l k hl hk
    have hmod2 : (k + l * m.m_rows) % SIZE_MOD = k + l * m.m_rows :=
      Nat.mod_eq_of_lt (by omega)
    have hkl : k < m.m_rows ∧ l < m.m_columns := ⟨hk, hl⟩
    rw [col_read_eq, col_read_eq]
    simp only [hkl, and_self, if_true, hmod2]
    apply hother
    intro he
    obtain ⟨e1, e2⟩ := offset_injective m.m_rows l k j i hk hi he
    exact hne (by rw [e1, e2])

/-- C18, the claim as stated fails: in the row-major matrix with `2 ^ 63 + 1`
rows and `2` columns, as constructed, writing `7` to the valid index `(0, 0)`
changes what the other valid index `(2 ^ 63, 0)` reads, from `0` to `7`. -/
theorem write_changes_other_index :
    RowMatrix.ctor smallAlloc Heap.empty (2 ^ 63 + 1) 2 = (.ok wrapRow, ⟨[some [0, 0]]⟩) ∧
    0 < wrapRow.rows ∧ 2 ^ 63 < wrapRow.rows ∧ 0 < wrapRow.columns ∧
    ((2 ^ 63, 0) : Nat × Nat) ≠ (0, 0) ∧
    RowMatrix.read (⟨[some [0, 0]]⟩ : Heap Nat) wrapRow (2 ^ 63) 0 = .ok 0 ∧
    RowMatrix.write (⟨[some [0, 0]]⟩ : Heap Nat) wrapRow 0 0 7 = (.ok (), ⟨[some [7, 0]]⟩) ∧
    RowMatrix.read (⟨[some [7, 0]]⟩ : Heap Nat) wrapRow (2 ^ 63) 0 = .ok 7 := by
  decide

/-- C18, amended: for a matrix of either layout that satisfies the class
invariant and whose element count does not wrap (`rows() * columns() < 2 ^ 64`),
a write of `v` through `operator()(i, j)` at a valid index succeeds, after it
`(i, j)` reads `v`, every other valid index reads what it read before, the
matrix still satisfies its invariant, and no write changes the members of any
object of the program (`rows()` and `columns()` stay as they are). -/
theorem write_read_law {α : Type} (h : Heap α) (m : BaseMatrix) (i j : Nat) (v : α)
    (hv : m.valid h) (hno : m.rows * m.columns < SIZE_MOD)
    (hi : i < m.rows) (hj : j < m.columns) :
    (∃ h1, RowMatrix.write h m i j v = (.ok (), h1) ∧
      RowMatrix.read h1 m i j = .ok v ∧ m.valid h1 ∧
      ∀ k l, k < m.rows → l < m.columns → (k, l) ≠ (i, j) →
        RowMatrix.read h1 m k l = RowMatrix.read h m k l) ∧
    (∃ h1, ColumnMatrix.write h m i j v = (.ok (), h1) ∧
      ColumnMatrix.read h1 m i j = .ok v ∧ m.valid h1 ∧
      ∀ k l, k < m.rows → l < m.columns → (k, l) ≠ (i, j) →
        ColumnMatrix.read h1 m k l = ColumnMatrix.read h m k l) ∧
    (∀ (w : World α) (obj row column : Nat) (x : α),
      (w.exec (.write obj row column x)).objs = w.objs) := by
  obtain ⟨h1, hw, hr, hv1, hothers, _⟩ := row_write_law h m i j v hv hno hi hj
  obtain ⟨h2, hw2, hr2, hv2, hothers2, _⟩ := col_write_law h m i j v hv hno hi hj
  refine ⟨⟨h1, hw, hr, hv1, hothers⟩, ⟨h2, hw2, hr2, hv2, hothers2⟩, ?_⟩
  intro w obj row column x
  unfold World.exec
  simp only
  cases w.objs[obj]? with
  | none => rfl
  | some y => rfl

/-- C18, amended, at the 3 by 3 matrix holding `1..9`: after `rowA(1, 1) = 42`
the index `(1, 1)` reads `42` and `(2, 2)` reads what it read before. -/
theorem write_read_law_witness :
    ∃ h1, RowMatrix.write heapAB rowA 1 1 42 = (.ok (), h1) ∧
      RowMatrix.read h1 rowA 1 1 = .ok 42 ∧
      RowMatrix.read h1 rowA 2 2 = RowMatrix.read heapAB rowA 2 2 := by
  obtain ⟨h1, hw, hr, _, hframe⟩ :=
    (write_read_law heapAB rowA 1 1 42 (by decide) (by decide) (by decide) (by decide)).1
  exact ⟨h1, hw, hr, hframe 2 2 (by decide) (by decide) (by decide)⟩


/-! ## Rejected accesses -/

/-- C13: for both layouts, a write through `operator()(row, column)` that ends
in `std::out_of_range` leaves the heap, hence every buffer element, as it was;
in a program the whole state (heap and the members of every object) is the
same after such a write; and forming the reference or reading through it has
no effect to begin with, the check being the first step. -/
theorem out_of_range_no_effect {α : Type} (h : Heap α) (m : BaseMatrix)
    (row column : Nat) (v : α) :
    ((RowMatrix.write h m row column v).1 = .out_of_range →
      (RowMatrix.write h m row column v).2 = h) ∧
    ((ColumnMatrix.write h m row column v).1 = .out_of_range →
      (ColumnMatrix.write h m row column v).2 = h) ∧
    (RowMatrix.read h m row column = .out_of_range →
      RowMatrix.op_call_const m row column = .out_of_range ∧
      m.access_check row column = .out_of_range) ∧
    (ColumnMatrix.read h m row column = .out_of_range →
      ColumnMatrix.op_call_const m row column = .out_of_range ∧
      m.access_check row column = .out_of_range) ∧
    (∀ (w : World α) (obj : Nat) (l : Layout), w.objs[obj]? = some (l, m) →
      w.heap = h → (l.write h m row column v).1 = .out_of_range →
      w.exec (.write obj row column v) = w) := by
  have hs := fun r => store_ne_out_of_range h r v
  have hl := load_ne_out_of_range h
  have hrow : (RowMatrix.write h m row column v).1 = .out_of_range →
      (RowMatrix.write h m row column v).2 = h := by
    rw [row_write_eq]
    split
    · intro he; exact absurd he (hs _)
    · intro _; rfl
  have hcol : (ColumnMatrix.write h m row column v).1 = .out_of_range →
      (ColumnMatrix.write h m row column v).2 = h := by
    rw [col_write_eq]
    split
    · intro he; exact absurd he (hs _)
    · intro _; rfl
  refine ⟨hrow, hcol, ?_, ?_, ?_⟩
  · rw [row_read_eq, row_op_call_const_eq, row_op_call_eq, access_check_out_of_range_iff]
    by_cases hc : row < m.m_rows ∧ column < m.m_columns
    · simp only [hc, and_self, if_true]
      intro he; exact absurd he (hl _)
    · simp only [hc, if_false]
      intro _; exact ⟨trivial, by omega⟩
  · rw [col_read_eq, col_op_call_const_eq, col_op_call_eq, access_check_out_of_range_iff]
    by_cases hc : row < m.m_rows ∧ column < m.m_columns
    · simp only [hc, and_self, if_true]
      intro he; exact absurd he (hl _)
    · simp only [hc, if_false]
      intro _; exact ⟨trivial, by omega⟩
  · intro w obj l hobj hh hout
    unfold World.exec
    simp only [hobj]
    subst hh
    have : (l.write w.heap m row column v).2 = w.heap := by
      cases l
      · exact hrow hout
      · exact hcol hout
    rw [this]

/-- C13 at the 3 by 3 matrix holding `1..9`: writing to `(3, 0)` is rejected and
the heap is the same afterwards. -/
theorem out_of_range_no_effect_witness :
    (RowMatrix.write heapAB rowA 3 0 42).1 = .out_of_range ∧
    (RowMatrix.write heapAB rowA 3 0 42).2 = heapAB :=
  ⟨by decide, (out_of_range_no_effect heapAB rowA 3 0 42).1 (by decide)⟩

/-! ## Strides -/

/-- C14, the claim as stated fails: in a 2 by 3 row-major matrix `(0, 0)` and
`(1, 0)` are at positions `0` and `3`, which differ by `columns() == 3` and not
by `rows() == 2`; in a 2 by 3 column-major matrix `(0, 0)` and `(0, 1)` are at
positions `0` and `2`, which differ by `rows() == 2` and not by
`columns() == 3`. -/
theorem strides_not_as_commented :
    colC.rows = 2 ∧ colC.columns = 3 ∧
    RowMatrix.op_call colC 0 0 = .ok ⟨colC.begin, 0⟩ ∧
    RowMatrix.op_call colC 1 0 = .ok ⟨colC.begin, 3⟩ ∧
    (3 : Nat) ≠ 0 + colC.rows ∧
    ColumnMatrix.op_call colC 0 0 = .ok ⟨colC.begin, 0⟩ ∧
    ColumnMatrix.op_call colC 0 1 = .ok ⟨colC.begin, 2⟩ ∧
    (2 : Nat) ≠ 0 + colC.columns := by
  decide

/-- C14, amended: when the element count does not wrap
(`rows() * columns() < 2 ^ 64`), in a row-major matrix the positions of `(i, j)`
and `(i, j + 1)` differ by `1` (each row is contiguous) and those of `(i, j)`
and `(i + 1, j)` differ by `columns()`; in a column-major matrix the positions
of `(i, j)` and `(i + 1, j)` differ by `1` (each column is contiguous) and those
of `(i, j)` and `(i, j + 1)` differ by `rows()`. -/
theorem strides {m : BaseMatrix} (i j : Nat) (hno : m.rows * m.columns < SIZE_MOD) :
    (i + 1 < m.rows → j < m.columns → ∃ p,
      RowMatrix.op_call m i j = .ok ⟨m.begin, p⟩ ∧
      RowMatrix.op_call m (i + 1) j = .ok ⟨m.begin, p + m.columns⟩) ∧
    (i < m.rows → j + 1 < m.columns → ∃ p,
      RowMatrix.op_call m i j = .ok ⟨m.begin, p⟩ ∧
      RowMatrix.op_call m i (j + 1) = .ok ⟨m.begin, p + 1⟩) ∧
    (i < m.rows → j + 1 < m.columns → ∃ p,
      ColumnMatrix.op_call m i j = .ok ⟨m.begin, p⟩ ∧
      ColumnMatrix.op_call m i (j + 1) = .ok ⟨m.begin, p + m.rows⟩) ∧
    (i + 1 < m.rows → j < m.columns → ∃ p,
      ColumnMatrix.op_call m i j = .ok ⟨m.begin, p⟩ ∧
      ColumnMatrix.op_call m (i + 1) j = .ok ⟨m.begin, p + 1⟩) := by
  simp only [BaseMatrix.rows, BaseMatrix.columns, BaseMatrix.begin] at *
  have hcomm : m.m_columns * m.m_rows = m.m_rows * m.m_columns := Nat.mul_comm _ _
  refine ⟨?_, ?_, ?_, ?_⟩
  · intro hi hj
    have h1 := offset_lt m.m_rows m.m_columns (i + 1) j hi hj
    have e : j + (i + 1) * m.m_columns = j + i * m.m_columns + m.m_columns := by
      rw [Nat.succ_mul]; omega
    have hc1 : i < m.m_rows ∧ j < m.m_columns := ⟨by omega, hj⟩
    have hc2 : i + 1 < m.m_rows ∧ j < m.m_columns := ⟨hi, hj⟩
    refine ⟨j + i * m.m_columns, ?_, ?_⟩
    · rw [row_op_call_eq]; simp only [hc1, and_self, if_true]
      rw [Nat.mod_eq_of_lt (by omega)]
    · rw [row_op_call_eq]; simp only [hc2, and_self, if_true]
      rw [Nat.mod_eq_of_lt (by omega), e]
  · intro hi hj
    have h1 := offset_lt m.m_rows m.m_columns i (j + 1) hi hj
    have hc1 : i < m.m_rows ∧ j < m.m_columns := ⟨hi, by omega⟩
    have hc2 : i < m.m_rows ∧ j + 1 < m.m_columns := ⟨hi, hj⟩
    refine ⟨j + i * m.m_columns, ?_, ?_⟩
    · rw [row_op_call_eq]; simp only [hc1, and_self, if_true]
      rw [Nat.mod_eq_of_lt (by omega)]
    · rw [row_op_call_eq]; simp only [hc2, and_self, if_true]
      rw [Nat.mod_eq_of_lt (by omega)]
      have e : j + 1 + i * m.m_columns = j + i * m.m_columns + 1 := by omega
      rw [e]
  · intro hi hj
    have h1 := offset_lt m.m_columns m.m_rows (j + 1) i hj hi
    have e : i + (j + 1) * m.m_rows = i + j * m.m_rows + m.m_rows := by
      rw [Nat.succ_mul]; omega
    have hc1 : i < m.m_rows ∧ j < m.m_columns := ⟨hi, by omega⟩
    have hc2 : i < m.m_rows ∧ j + 1 < m.m_columns := ⟨hi, hj⟩
    refine ⟨i + j * m.m_rows, ?_, ?_⟩
    · rw [col_op_call_eq]; simp only [hc1, and_self, if_true]
      rw [Nat.mod_eq_of_lt (by omega)]
    · rw [col_op_call_eq]; simp only [hc2, and_self, if_true]
      rw [Nat.mod_eq_of_lt (by omega), e]
  · intro hi hj
    have h1 := offset_lt m.m_columns m.m_rows j (i + 1) hj hi
    have hc1 : i < m.m_rows ∧ j < m.m_columns := ⟨by omega, hj⟩
    have hc2 : i + 1 < m.m_rows ∧ j < m.m_columns := ⟨hi, hj⟩
    refine ⟨i + j * m.m_rows, ?_, ?_⟩
    · rw [col_op_call_eq]; simp only [hc1, and_self, if_true]
      rw [Nat.mod_eq_of_lt (by omega)]
    · rw [col_op_call_eq]; simp only [hc2, and_self, if_true]
      rw [Nat.mod_eq_of_lt (by omega)]
      have e : i + 1 + j * m.m_rows = i + j * m.m_rows + 1 := by omega
      rw [e]

/-- C14, amended, at a 2 by 3 matrix: row-major `(0, 1)` and `(1, 1)` are
`columns() == 3` apart, column-major `(1, 1)` and `(1, 2)` are `rows() == 2`
apart. -/
theorem strides_witness :
    (∃ p, RowMatrix.op_call colC 0 1 = .ok ⟨colC.begin, p⟩ ∧
      RowMatrix.op_call colC (0 + 1) 1 = .ok ⟨colC.begin, p + colC.columns⟩) ∧
    (∃ p, ColumnMatrix.op_call colC 1 1 = .ok ⟨colC.begin, p⟩ ∧
      ColumnMatrix.op_call colC 1 (1 + 1) = .ok ⟨colC.begin, p + colC.rows⟩) :=
  ⟨(strides 0 1 (by decide : colC.rows * colC.columns < SIZE_MOD)).1
      (by decide) (by decide),
    (strides 1 1 (by decide : colC.rows * colC.columns < SIZE_MOD)).2.2.1
      (by decide) (by decide)⟩

/-! ## Indexing and the bounds of the buffer -/

/-- C17, the code at the failing input: `RowMatrix(2 ^ 63 + 1, 2)` is
constructed with `2` elements, `(1, 0)` passes `access_check`, and the offset
computed by `operator()` is `2`, not below the number of elements allocated;
reading through the reference is an access outside the array. The same holds
for `ColumnMatrix(2, 2 ^ 63 + 1)` at `(0, 1)`. -/
theorem index_outside_buffer :
    RowMatrix.ctor smallAlloc Heap.empty (2 ^ 63 + 1) 2 = (.ok wrapRow, ⟨[some [0, 0]]⟩) ∧
    (⟨[some [0, 0]]⟩ : Heap Nat).block wrapRow.begin = some [0, 0] ∧
    (wrapRow.rows * wrapRow.columns) % SIZE_MOD = 2 ∧
    wrapRow.access_check 1 0 = .ok () ∧
    RowMatrix.op_call wrapRow 1 0 = .ok ⟨wrapRow.begin, 2⟩ ∧
    ¬ (2 < (wrapRow.rows * wrapRow.columns) % SIZE_MOD) ∧
    RowMatrix.read (⟨[some [0, 0]]⟩ : Heap Nat) wrapRow 1 0 = .undefined ∧
    ColumnMatrix.ctor smallAlloc Heap.empty 2 (2 ^ 63 + 1) = (.ok wrapCol, ⟨[some [0, 0]]⟩) ∧
    wrapCol.access_check 0 1 = .ok () ∧
    ColumnMatrix.op_call wrapCol 0 1 = .ok ⟨wrapCol.begin, 2⟩ ∧
    ¬ (2 < (wrapCol.rows * wrapCol.columns) % SIZE_MOD) ∧
    ColumnMatrix.read (⟨[some [0, 0]]⟩ : Heap Nat) wrapCol 0 1 = .undefined := by
  decide

/-- Away from wrap-around the check does keep indexing inside the buffer: when
`r * c < 2 ^ 64`, every index that passes `access_check` on a matrix constructed
with `(r, c)` has both offsets below the `r * c` elements allocated. -/
theorem index_inside_buffer_without_wrap {α : Type} (al : Allocator α) (h h1 : Heap α)
    (r c row column : Nat) (m : BaseMatrix)
    (hok : BaseMatrix.ctor al h r c = (.ok m, h1)) (hno : r * c < SIZE_MOD)
    (hchk : m.access_check row column = .ok ()) :
    (column + row * m.m_columns) % SIZE_MOD < (r * c) % SIZE_MOD ∧
    (row + column * m.m_rows) % SIZE_MOD < (r * c) % SIZE_MOD := by
  obtain ⟨hm, _⟩ := ctor_ok_members al h r c m h1 hok
  subst hm
  rw [access_check_ok_iff] at hchk
  simp only at hchk ⊢
  have h1 := offset_lt r c row column hchk.1 hchk.2
  have h2 := offset_lt c r column row hchk.2 hchk.1
  have hcomm : c * r = r * c := Nat.mul_comm _ _
  rw [Nat.mod_eq_of_lt hno, Nat.mod_eq_of_lt (by omega), Nat.mod_eq_of_lt (by omega)]
  exact ⟨h1, by omega⟩

/-! ## Self-assignment -/

/-- C19: for a matrix `A` of either layout that satisfies the class invariant,
`A = A` succeeds exactly when the allocation for the temporary is granted, and
afterwards `A` has the same `rows()` and `columns()` and reads at every index
what it read before. -/
theorem self_assign_harmless {α : Type} (al : Allocator α) (h : Heap α) (a : BaseMatrix)
    (hv : a.valid h) :
    (((∃ a1 h1, RowMatrix.op_assign al h a a = (.ok (), a1, h1)) ↔
        al.admits a.size = true) ∧
      ∀ a1 h1, RowMatrix.op_assign al h a a = (.ok (), a1, h1) →
        a1.rows = a.rows ∧ a1.columns = a.columns ∧ a1.valid h1 ∧
        ∀ i j, RowMatrix.read h1 a1 i j = RowMatrix.read h a i j) ∧
    (((∃ a1 h1, ColumnMatrix.op_assign al h a a = (.ok (), a1, h1)) ↔
        al.admits a.size = true) ∧
      ∀ a1 h1, ColumnMatrix.op_assign al h a a = (.ok (), a1, h1) →
        a1.rows = a.rows ∧ a1.columns = a.columns ∧ a1.valid h1 ∧
        ∀ i j, ColumnMatrix.read h1 a1 i j = ColumnMatrix.read h a i j) := by
  have hiff : (∃ a1 h1, RowMatrix.op_assign al h a a = (.ok (), a1, h1)) ↔
      al.admits a.size = true := by
    constructor
    · rintro ⟨a1, h1, hok⟩
      exact (assign_post al h a a a1 h1 hv hv hok).1
    · intro hyes
      exact ⟨_, _, assign_granted_row al h a a hv hyes⟩
  refine ⟨⟨hiff, ?_⟩, ⟨hiff, ?_⟩⟩
  · intro a1 h1 hok
    obtain ⟨_, hm, _, hnew, hv1, _⟩ := assign_post al h a a a1 h1 hv hv hok
    have hr : a1.m_rows = a.m_rows := by rw [hm]
    have hc : a1.m_columns = a.m_columns := by rw [hm]
    refine ⟨hr, hc, hv1, ?_⟩
    intro i j
    rcases hnew with hz | hnew
    · exact row_read_null h h1 a a1 i j hr hc hz
    · exact row_read_congr h h1 a a1 i j hr hc hnew
  · intro a1 h1 hok
    rw [assign_row_eq_col] at hok
    obtain ⟨_, hm, _, hnew, hv1, _⟩ := assign_post al h a a a1 h1 hv hv hok
    have hr : a1.m_rows = a.m_rows := by rw [hm]
    have hc : a1.m_columns = a.m_columns := by rw [hm]
    refine ⟨hr, hc, hv1, ?_⟩
    intro i j
    rcases hnew with hz | hnew
    · exact col_read_null h h1 a a1 i j hr hc hz
    · exact col_read_congr h h1 a a1 i j hr hc hnew

/-- C19 at the 3 by 3 matrix holding `1..9`: after `rowA = rowA` the matrix owns
a new block at address `3` and still reads `5` at `(1, 1)`. -/
theorem self_assign_harmless_witness :
    RowMatrix.op_assign smallAlloc heapAB rowA rowA = (.ok (), ⟨3, 3, 3⟩, heapSelfAssign) ∧
    RowMatrix.read heapSelfAssign ⟨3, 3, 3⟩ 1 1 = RowMatrix.read heapAB rowA 1 1 ∧
    RowMatrix.read heapAB rowA 1 1 = .ok 5 :=
  ⟨by decide,
    ((self_assign_harmless smallAlloc heapAB rowA (by decide)).1.2 ⟨3, 3, 3⟩ heapSelfAssign
      (by decide)).2.2.2 1 1,
    by decide⟩


/-! ## Sequential iteration -/

theorem load_range_of_block {α : Type} (h : Heap α) (base : Nat) (b : List α)
    (hb : h.block base = some b) (n s : Nat) (hle : s + n ≤ b.length) :
    h.load_range base s n = .ok ((b.drop s).take n) := by
  induction n generalizing s with
  | zero => simp [Heap.load_range]
  | succ k ih =>
    have hs : s < b.length := by omega
    have hload : h.load ⟨base, s⟩ = .ok b[s] := by
      rw [load_of_block h base s b hb, List.getElem?_eq_getElem hs]
    unfold Heap.load_range
    rw [hload, ih (s + 1) (by omega), List.drop_eq_getElem_cons hs]
    rfl

theorem elements_of_valid {α : Type} (h : Heap α) (m : BaseMatrix) (hv : m.valid h) :
    ∃ xs, m.elements h = .ok xs ∧ xs.length = m.size ∧
      (0 < m.size → h.block m.m_data = some xs) := by
  unfold BaseMatrix.elements BaseMatrix.end_ BaseMatrix.begin
  rcases hv with ⟨h0, hr, _⟩ | hv
  · have hs : m.size = 0 := by simp [BaseMatrix.size, hr]
    refine ⟨[], ?_, hs.symm, fun hp => by omega⟩
    simp only [hs]
    rfl
  · cases hb : h.block m.m_data with
    | none => rw [hb] at hv; simp at hv
    | some b =>
      rw [hb] at hv
      simp only [Option.map_some', Option.some.injEq] at hv
      refine ⟨b, ?_, hv, fun _ => rfl⟩
      simp only
      rw [load_range_of_block h m.m_data b hb m.size 0 (by omega)]
      simp [← hv]

/-- C11, the claim as stated fails: the row-major matrix with `2 ^ 63 + 1` rows
and `2` columns, as constructed and after `7` is written to `(0, 0)`, is
iterated in two steps, so for `k = 2`, which is below `rows() * columns()`, there
is no `k`-th element, and `(k / 2, k % 2) = (1, 0)` is outside the buffer. -/
theorem iteration_shorter_than_product :
    RowMatrix.ctor smallAlloc Heap.empty (2 ^ 63 + 1) 2 = (.ok wrapRow, ⟨[some [0, 0]]⟩) ∧
    RowMatrix.write ⟨[some [0, 0]]⟩ wrapRow 0 0 7 = (.ok (), ⟨[some [7, 0]]⟩) ∧
    wrapRow.elements (⟨[some [7, 0]]⟩ : Heap Nat) = .ok [7, 0] ∧
    2 < wrapRow.rows * wrapRow.columns ∧
    ([7, 0] : List Nat)[2]? = none ∧
    RowMatrix.read (⟨[some [7, 0]]⟩ : Heap Nat) wrapRow (2 / wrapRow.columns)
      (2 % wrapRow.columns) = .undefined := by
  decide

/-- C11, amended: for a matrix that satisfies the class invariant, iterating
`begin()..end()` yields exactly `size()` elements, and for every `k < size()`
the `k`-th of them is the element at `(k / columns(), k % columns())` of the
row-major matrix and at `(k % rows(), k / rows())` of the column-major matrix;
`size()` is `rows() * columns()` whenever that product is below `2 ^ 64`. -/
theorem iteration_storage_order {α : Type} (h : Heap α) (m : BaseMatrix)
    (hv : m.valid h) :
    ∃ xs, m.elements h = .ok xs ∧ xs.length = m.size ∧
      (∀ k, k < m.size → ∃ x, xs[k]? = some x ∧
        RowMatrix.read h m (k / m.columns) (k % m.columns) = .ok x ∧
        ColumnMatrix.read h m (k % m.rows) (k / m.rows) = .ok x) ∧
      (m.rows * m.columns < SIZE_MOD → m.size = m.rows * m.columns) := by
  obtain ⟨xs, hxs, hlen, hblk⟩ := elements_of_valid h m hv
  refine ⟨xs, hxs, hlen, ?_, fun hlt => Nat.mod_eq_of_lt hlt⟩
  intro k hk
  simp only [BaseMatrix.rows, BaseMatrix.columns]
  have hb := hblk (by omega)
  have hsz : m.size ≤ m.m_rows * m.m_columns := Nat.mod_le _ _
  have hM : m.size < SIZE_MOD := Nat.mod_lt _ (by decide)
  have hkM : k % SIZE_MOD = k := Nat.mod_eq_of_lt (by omega)
  have hpos : 0 < m.m_rows * m.m_columns := by omega
  have hcpos : 0 < m.m_columns := Nat.pos_of_mul_pos_left hpos
  have hrpos : 0 < m.m_rows := Nat.pos_of_mul_pos_right hpos
  obtain ⟨x, hload, hget⟩ := load_in_bounds h m.m_data k xs hb (by omega)
  refine ⟨x, hget, ?_, ?_⟩
  · have h1 : k / m.m_columns < m.m_rows :=
      (Nat.div_lt_iff_lt_mul hcpos).mpr (by omega)
    have h2 : k % m.m_columns < m.m_columns := Nat.mod_lt _ hcpos
    have h3 : k % m.m_columns + k / m.m_columns * m.m_columns = k := by
      rw [Nat.mul_comm]; exact Nat.mod_add_div k m.m_columns
    rw [row_read_eq]
    simp only [h1, h2, and_self, if_true, h3, hkM]
    exact hload
  · have hcomm : m.m_columns * m.m_rows = m.m_rows * m.m_columns := Nat.mul_comm _ _
    have h1 : k / m.m_rows < m.m_columns :=
      (Nat.div_lt_iff_lt_mul hrpos).mpr (by omega)
    have h2 : k % m.m_rows < m.m_rows := Nat.mod_lt _ hrpos
    have h3 : k % m.m_rows + k / m.m_rows * m.m_rows = k := by
      rw [Nat.mul_comm]; exact Nat.mod_add_div k m.m_rows
    rw [col_read_eq]
    simp only [h1, h2, and_self, if_true, h3, hkM]
    exact hload

/-- C11, amended, at the 3 by 3 matrix holding `1..9`: iteration yields the
nine elements in buffer order, and the element `4` positions in is the one at
`(1, 1)` in either layout. -/
theorem iteration_storage_order_witness :
    rowA.elements heapAB = .ok [1, 2, 3, 4, 5, 6, 7, 8, 9] ∧
    ∃ xs, rowA.elements heapAB = .ok xs ∧ xs.length = rowA.size ∧
      (∃ x, xs[4]? = some x ∧
        RowMatrix.read heapAB rowA (4 / rowA.columns) (4 % rowA.columns) = .ok x ∧
        ColumnMatrix.read heapAB rowA (4 % rowA.rows) (4 / rowA.rows) = .ok x) := by
  refine ⟨by decide, ?_⟩
  obtain ⟨xs, h1, h2, h3, _⟩ := iteration_storage_order heapAB rowA (by decide)
  exact ⟨xs, h1, h2, h3 4 (by decide)⟩


/-! ## The two layouts behind one indexing contract -/

/-- A matrix that satisfies the class invariant and reads a value at every
valid index has an element count that did not wrap. -/
theorem no_wrap_of_all_readable {α : Type} (h : Heap α) (m : BaseMatrix) (hv : m.valid h)
    (hall : ∀ i j, i < m.m_rows → j < m.m_columns → ∃ v : α, RowMatrix.read h m i j = .ok v) :
    m.m_rows * m.m_columns < SIZE_MOD := by
  by_contra hge
  have hMpos : 0 < SIZE_MOD := by decide
  have hM : m.size < SIZE_MOD := Nat.mod_lt _ hMpos
  have hpos : 0 < m.m_rows * m.m_columns := by omega
  have hcpos : 0 < m.m_columns := Nat.pos_of_mul_pos_left hpos
  have hrpos : 0 < m.m_rows := Nat.pos_of_mul_pos_right hpos
  have h1 : m.size / m.m_columns < m.m_rows :=
    (Nat.div_lt_iff_lt_mul hcpos).mpr (by omega)
  have h2 : m.size % m.m_columns < m.m_columns := Nat.mod_lt _ hcpos
  have h3 : m.size % m.m_columns + m.size / m.m_columns * m.m_columns = m.size := by
    rw [Nat.mul_comm]; exact Nat.mod_add_div _ _
  obtain ⟨v, hread⟩ := hall _ _ h1 h2
  obtain ⟨b, hb, hlen⟩ := valid_live h m hv hrpos
  rw [row_read_eq] at hread
  simp only [h1, h2, and_self, if_true, h3, Nat.mod_eq_of_lt hM] at hread
  rw [load_of_block h m.m_data m.size b hb,
    List.getElem?_eq_none (by omega)] at hread
  simp at hread

theorem row_write_rejected {α : Type} (h : Heap α) (m : BaseMatrix) (i j : Nat) (v : α)
    (hn : ¬ (i < m.m_rows ∧ j < m.m_columns)) :
    (RowMatrix.write h m i j v).2 = h := by
  rw [row_write_eq]; simp only [hn, if_false]

theorem col_write_rejected {α : Type} (h : Heap α) (m : BaseMatrix) (i j : Nat) (v : α)
    (hn : ¬ (i < m.m_rows ∧ j < m.m_columns)) :
    (ColumnMatrix.write h m i j v).2 = h := by
  rw [col_write_eq]; simp only [hn, if_false]

/-- The state two matrices of equal dimensions are kept in by paired writes:
both satisfy the class invariant and read the same value at every valid
index. -/
theorem agree_step {α : Type} (a b : BaseMatrix) (h : Heap α) (w : Nat × Nat × α)
    (hr : a.m_rows = b.m_rows) (hc : a.m_columns = b.m_columns)
    (hd : a.m_data = b.m_data → a.m_data = 0)
    (hva : a.valid h) (hvb : b.valid h)
    (hag : ∀ i j, i < a.m_rows → j < a.m_columns →
      ∃ v, RowMatrix.read h a i j = .ok v ∧ ColumnMatrix.read h b i j = .ok v) :
    a.valid (write_both a b h w) ∧ b.valid (write_both a b h w) ∧
    ∀ i j, i < a.m_rows → j < a.m_columns →
      ∃ v, RowMatrix.read (write_both a b h w) a i j = .ok v ∧
        ColumnMatrix.read (write_both a b h w) b i j = .ok v := by
  obtain ⟨i0, j0, v0⟩ := w
  unfold write_both
  simp only
  by_cases hin : i0 < a.m_rows ∧ j0 < a.m_columns
  · have hno : a.m_rows * a.m_columns < SIZE_MOD :=
      no_wrap_of_all_readable h a hva (fun i j hi hj => by
        obtain ⟨v, hv, _⟩ := hag i j hi hj
        exact ⟨v, hv⟩)
    have hnob : b.m_rows * b.m_columns < SIZE_MOD := by rw [← hr, ← hc]; exact hno
    obtain ⟨balive, hbalive, _⟩ := valid_live h a hva (by omega)
    have ha0 : a.m_data ≠ 0 := fun h0 => by
      rw [h0, block_zero] at hbalive; simp at hbalive
    have hne : a.m_data ≠ b.m_data := fun he => ha0 (hd he)
    obtain ⟨h1, hw1, hrd1, hva1, hoth1, hfr1⟩ :=
      row_write_law h a i0 j0 v0 hva hno hin.1 hin.2
    have hb1 : h1.block b.m_data = h.block b.m_data := hfr1 _ (fun he => hne he.symm)
    have hvb1 : b.valid h1 := valid_congr h h1 b hb1 hvb
    obtain ⟨h2, hw2, hrd2, hvb2, hoth2, hfr2⟩ :=
      col_write_law h1 b i0 j0 v0 hvb1 hnob (by omega) (by omega)
    have ha2 : h2.block a.m_data = h1.block a.m_data := hfr2 _ hne
    rw [hw1]
    simp only
    rw [hw2]
    simp only
    refine ⟨valid_congr h1 h2 a ha2 hva1, hvb2, ?_⟩
    intro i j hi hj
    by_cases he : (i, j) = (i0, j0)
    · simp only [Prod.mk.injEq] at he
      obtain ⟨e1, e2⟩ := he
      subst e1 e2
      exact ⟨v0, by rw [row_read_congr h1 h2 a a i j rfl rfl ha2]; exact hrd1, hrd2⟩
    · obtain ⟨v, hv1, hv2⟩ := hag i j hi hj
      refine ⟨v, ?_, ?_⟩
      · rw [row_read_congr h1 h2 a a i j rfl rfl ha2, hoth1 i j hi hj he]
        exact hv1
      · rw [hoth2 i j (by omega) (by omega) he, col_read_congr h h1 b b i j rfl rfl hb1]
        exact hv2
  · have hinb : ¬ (i0 < b.m_rows ∧ j0 < b.m_columns) := by rw [← hr, ← hc]; exact hin
    rw [row_write_rejected h a i0 j0 v0 hin, col_write_rejected h b i0 j0 v0 hinb]
    exact ⟨hva, hvb, hag⟩

theorem agree_run {α : Type} (a b : BaseMatrix) (ws : List (Nat × Nat × α)) (h : Heap α)
    (hr : a.m_rows = b.m_rows) (hc : a.m_columns = b.m_columns)
    (hd : a.m_data = b.m_data → a.m_data = 0)
    (hva : a.valid h) (hvb : b.valid h)
    (hag : ∀ i j, i < a.m_rows → j < a.m_columns →
      ∃ v, RowMatrix.read h a i j = .ok v ∧ ColumnMatrix.read h b i j = .ok v) :
    ∀ i j, i < a.m_rows → j < a.m_columns →
      ∃ v, RowMatrix.read (writes_both a b h ws) a i j = .ok v ∧
        ColumnMatrix.read (writes_both a b h ws) b i j = .ok v := by
  induction ws generalizing h with
  | nil => exact hag
  | cons w rest ih =>
    obtain ⟨hva1, hvb1, hag1⟩ := agree_step a b h w hr hc hd hva hvb hag
    exact ih (write_both a b h w) hva1 hvb1 hag1

/-- C12: let a row-major `a` and a column-major `b` satisfy the class invariant,
have equal dimensions, own different buffers, and hold the same value at every
valid `(i, j)`. After any finite sequence of writes `a(row, column) = v;
b(row, column) = v` every read at any `(i, j)` has the same outcome on both,
namely the same value when `(i, j)` is valid and `std::out_of_range` otherwise,
and `rows()`, `columns()` and `size()` are equal. -/
theorem layouts_interchangeable {α : Type} (a b : BaseMatrix) (h : Heap α)
    (ws : List (Nat × Nat × α))
    (hr : a.rows = b.rows) (hc : a.columns = b.columns)
    (hd : a.begin = b.begin → a.begin = 0)
    (hva : a.valid h) (hvb : b.valid h)
    (hag : ∀ i j, i < a.rows → j < a.columns →
      ∃ v, RowMatrix.read h a i j = .ok v ∧ ColumnMatrix.read h b i j = .ok v) :
    (∀ i j, RowMatrix.read (writes_both a b h ws) a i j =
      ColumnMatrix.read (writes_both a b h ws) b i j) ∧
    (∀ i j, i < a.rows → j < a.columns →
      ∃ v, RowMatrix.read (writes_both a b h ws) a i j = .ok v ∧
        ColumnMatrix.read (writes_both a b h ws) b i j = .ok v) ∧
    (∀ i j, ¬ (i < a.rows ∧ j < a.columns) →
      RowMatrix.read (writes_both a b h ws) a i j = .out_of_range ∧
      ColumnMatrix.read (writes_both a b h ws) b i j = .out_of_range) ∧
    a.rows = b.rows ∧ a.columns = b.columns ∧ a.size = b.size := by
  simp only [BaseMatrix.rows, BaseMatrix.columns, BaseMatrix.begin] at *
  have hval := agree_run a b ws h hr hc hd hva hvb hag
  have hinv : ∀ i j, ¬ (i < a.m_rows ∧ j < a.m_columns) →
      RowMatrix.read (writes_both a b h ws) a i j = .out_of_range ∧
      ColumnMatrix.read (writes_both a b h ws) b i j = .out_of_range := by
    intro i j hn
    have hnb : ¬ (i < b.m_rows ∧ j < b.m_columns) := by rw [← hr, ← hc]; exact hn
    rw [row_read_eq, col_read_eq]
    simp only [hn, hnb, if_false, and_self]
  refine ⟨?_, hval, hinv, hr, hc, ?_⟩
  · intro i j
    by_cases hin : i < a.m_rows ∧ j < a.m_columns
    · obtain ⟨v, h1, h2⟩ := hval i j hin.1 hin.2
      rw [h1, h2]
    · obtain ⟨h1, h2⟩ := hinv i j hin
      rw [h1, h2]
  · simp only [BaseMatrix.size, hr, hc]

/-- C12 at two 2 by 2 matrices holding `1 2 / 3 4`: after writing `9` to
`(0, 1)`, `8` to `(5, 5)` (rejected by both) and `7` to `(1, 0)`, both read `9`
at `(0, 1)`, `7` at `(1, 0)`, and agree everywhere. -/
theorem layouts_interchangeable_witness :
    RowMatrix.read (writes_both pairRow pairCol pairHeap pairWrites) pairRow 0 1 = .ok 9 ∧
    ColumnMatrix.read (writes_both pairRow pairCol pairHeap pairWrites) pairCol 0 1 = .ok 9 ∧
    ColumnMatrix.read (writes_both pairRow pairCol pairHeap pairWrites) pairCol 1 0 = .ok 7 ∧
    (writes_both pairRow pairCol pairHeap pairWrites).block pairRow.begin
      = some [1, 9, 7, 4] ∧
    (writes_both pairRow pairCol pairHeap pairWrites).block pairCol.begin
      = some [1, 7, 9, 4] ∧
    ∀ i j, RowMatrix.read (writes_both pairRow pairCol pairHeap pairWrites) pairRow i j =
      ColumnMatrix.read (writes_both pairRow pairCol pairHeap pairWrites) pairCol i j :=
  ⟨by decide, by decide, by decide, by decide, by decide,
    (layouts_interchangeable pairRow pairCol pairHeap pairWrites rfl rfl (by decide)
      (by decide) (by decide)
      (by
        intro i j hi hj
        have hi2 : i < 2 := hi
        have hj2 : j < 2 := hj
        interval_cases i <;> interval_cases j
        · exact ⟨1, by decide, by decide⟩
        · exact ⟨2, by decide, by decide⟩
        · exact ⟨3, by decide, by decide⟩
        · exact ⟨4, by decide, by decide⟩)).1⟩

end depthmapX

/-! ## The interval timer -/

theorem wrap_time_t_of_range (x : Int) (hx : is_time_t x) : wrap_time_t x = x := by
  unfold is_time_t at hx
  unfold wrap_time_t
  norm_num at hx ⊢
  omega

theorem wrap_time_t_sub_eq_zero (a b : Int) (ha : is_time_t a) (hb : is_time_t b)
    (h0 : wrap_time_t (a - b) = 0) : a = b := by
  unfold is_time_t at ha hb
  unfold wrap_time_t at h0
  norm_num at ha hb h0
  omega

/-- C15: for all `time_t` values `t1` and `now`, after `qtimer(t1, 0)` the
variable `t1` equals `now`: the call returns `true` and stores `now` when the
two differ, and returns `false` leaving `t1` alone when they are already
equal. -/
theorem qtimer_zero_sets_now (now t1 : Int) (hn : is_time_t now) (ht : is_time_t t1) :
    (qtimer now t1 0).2 = now ∧
    ((qtimer now t1 0).1 = true ↔ t1 ≠ now) := by
  unfold qtimer
  simp only
  by_cases hc : wrap_time_t (now - t1) > 0 ∨ wrap_time_t (now - t1) < 0
  · simp only [hc, if_true, true_iff]
    refine ⟨trivial, ?_⟩
    intro he
    subst he
    have : wrap_time_t (t1 - t1) = 0 := by
      unfold wrap_time_t; norm_num
    omega
  · simp only [hc, if_false]
    have h0 : wrap_time_t (now - t1) = 0 := by omega
    have he := wrap_time_t_sub_eq_zero now t1 hn ht h0
    exact ⟨he.symm, by simp [he]⟩

/-- C15 at `t1 = 0`, `now = 1700000000000`, and at `t1 = now = 5`. -/
theorem qtimer_zero_sets_now_witness :
    (qtimer 1700000000000 0 0).2 = 1700000000000 ∧ (qtimer 5 5 0).2 = 5 :=
  ⟨(qtimer_zero_sets_now 1700000000000 0 (by decide) (by decide)).1,
    (qtimer_zero_sets_now 5 5 (by decide) (by decide)).1⟩

/-- C16, the claim as stated fails: with `t1 = 10`, `now = 5` and
`timeout = 500` the difference `now - t1` is `-5`, not longer than the timeout,
yet `qtimer` returns `true` and sets `t1` to `5`. -/
theorem qtimer_syncs_on_negative_difference :
    qtimer 5 10 500 = (true, 5) ∧ ¬ ((5 : Int) - 10 > 500) ∧
    (qtimer 5 10 500).2 ≠ 10 := by
  decide

/-- C16, amended: `qtimer(t1, timeout)` sets `t1` to `now` and returns `true`
exactly when the difference `now - t1` (as a `time_t`) is longer than `timeout`
or is negative; otherwise it leaves `t1` unchanged and returns `false`. The
`time_t` difference is `now - t1` whenever that is in range. -/
theorem qtimer_sync_iff (now t1 timeout : Int) :
    ((qtimer now t1 timeout).1 = true ↔
      wrap_time_t (now - t1) > timeout ∨ wrap_time_t (now - t1) < 0) ∧
    ((qtimer now t1 timeout).1 = true → qtimer now t1 timeout = (true, now)) ∧
    ((qtimer now t1 timeout).1 = false → qtimer now t1 timeout = (false, t1)) ∧
    (is_time_t (now - t1) → wrap_time_t (now - t1) = now - t1) ∧
    (is_time_t (now - t1) →
      ((qtimer now t1 timeout).1 = true ↔ now - t1 > timeout ∨ now - t1 < 0)) := by
  have key : (qtimer now t1 timeout).1 = true ↔
      wrap_time_t (now - t1) > timeout ∨ wrap_time_t (now - t1) < 0 := by
    unfold qtimer
    simp only
    by_cases hc : wrap_time_t (now - t1) > timeout ∨ wrap_time_t (now - t1) < 0
    · simp only [hc, if_true]
    · simp only [hc, if_false]
      simp
  refine ⟨key, ?_, ?_, wrap_time_t_of_range _, ?_⟩
  · intro h1
    have hc := key.mp h1
    unfold qtimer
    simp only [hc, if_true]
  · intro h1
    have hc : ¬ (wrap_time_t (now - t1) > timeout ∨ wrap_time_t (now - t1) < 0) := by
      intro hc
      rw [key.mpr hc] at h1
      exact absurd h1 (by decide)
    unfold qtimer
    simp only [hc, if_false]
  · intro hr
    rw [key, wrap_time_t_of_range _ hr]

/-- C16, amended, at `t1 = 400`, `timeout = 500`: at `now = 1000` the interval
has elapsed and `t1` becomes `1000`; at `now = 700` it has not and `t1` stays
`400`. -/
theorem qtimer_sync_iff_witness :
    qtimer 1000 400 500 = (true, 1000) ∧ qtimer 700 400 500 = (false, 400) ∧
    wrap_time_t (1000 - 400) = 1000 - 400 :=
  ⟨(qtimer_sync_iff 1000 400 500).2.1 (by decide),
    (qtimer_sync_iff 700 400 500).2.2.1 (by decide),
    (qtimer_sync_iff 1000 400 500).2.2.2.1 (by decide)⟩
